import Mathlib

/-!
Verification of the gleam external file-sort engine
(`sql/util/filesort/filesort.go`) and of the executor's subprocess
retry / argument contract (`distributed/executor`, file part_003).

The Go code is shallowly embedded: the `FileSorter` becomes a Lean
structure with explicit state passing; the filesystem it touches (the
working directory and its numbered run files) is part of that state;
fallible operations return an `Option String` error component carrying
the source's error messages.  External collaborators that are not part
of this repository's sources (the `types.Datum` comparison, the
`codec` encoder, Go's `container/heap` and `sort.Sort`) are modelled
from the spec, as noted on each definition.
-/

set_option maxHeartbeats 1000000
set_option maxRecDepth 10000

namespace Gleam

/-! ### Datums and the comparator -/

/-- Modelled from the spec: `v1.CompareDatum(sc, v2)` of the external
types collaborator.  A Datum ("a single typed value within a row") is
modelled as an integer, the representative datum type, so the
comparison is total (it never returns a coercion error) and
three-way, returning -1/0/1. -/
def compareDatum (a b : Int) : Int :=
  if a < b then -1 else if a = b then 0 else 1

/-- The per-column comparison of `lessThan` (filesort.go:55-62): the
three-way `CompareDatum` result, negated when the column's descending
flag is set (`if byDesc[k] { ret = -ret }`). -/
def adjCmp (d : Bool) (a b : Int) : Int :=
  if d then -(compareDatum a b) else compareDatum a b

/-- Embedding of `lessThan` (filesort.go:50-71): lexicographic over the
columns of `byDesc`, each column's three-way comparison flipped by its
descending flag, first non-zero comparison deciding.  The comparison
error path collapses because `compareDatum` is total. -/
def lessThan (i j : List Int) (byDesc : List Bool) : Bool :=
  match i, j, byDesc with
  | v1 :: i, v2 :: j, d :: bd =>
    if adjCmp d v1 v2 < 0 then true
    else if adjCmp d v1 v2 > 0 then false
    else lessThan i j bd
  | _, _, _ => false

/-- Three-way version of `lessThan`, used to reason about it. -/
def cmpKeys (i j : List Int) (byDesc : List Bool) : Int :=
  match i, j, byDesc with
  | v1 :: i, v2 :: j, d :: bd =>
    if adjCmp d v1 v2 = 0 then cmpKeys i j bd else adjCmp d v1 v2
  | _, _, _ => 0

theorem adjCmp_neg (d : Bool) (a b : Int) : adjCmp d b a = -adjCmp d a b := by
  simp only [adjCmp, compareDatum]
  split_ifs <;> omega

theorem adjCmp_eq_zero_iff (d : Bool) (a b : Int) : adjCmp d a b = 0 ↔ a = b := by
  simp only [adjCmp, compareDatum]
  constructor
  · intro h
    revert h
    split_ifs <;> intro h <;> first
      | exact h.elim
      | omega
  · intro h
    subst h
    split_ifs <;> omega

theorem adjCmp_lt_trans {d : Bool} {a b c : Int}
    (h1 : adjCmp d a b < 0) (h2 : adjCmp d b c < 0) : adjCmp d a c < 0 := by
  simp only [adjCmp, compareDatum] at *
  split_ifs at * <;> omega

theorem lessThan_eq_decide (i j : List Int) (bd : List Bool) :
    lessThan i j bd = decide (cmpKeys i j bd < 0) := by
  induction bd generalizing i j with
  | nil => cases i <;> cases j <;> simp [lessThan, cmpKeys]
  | cons d bd ih =>
    cases i with
    | nil => cases j <;> simp [lessThan, cmpKeys]
    | cons v1 i =>
      cases j with
      | nil => simp [lessThan, cmpKeys]
      | cons v2 j =>
        simp only [lessThan, cmpKeys]
        by_cases h0 : adjCmp d v1 v2 = 0
        · simp [h0, ih]
        · rcases lt_or_gt_of_ne h0 with h | h
          · simp [h0, h, le_of_lt]
          · have : ¬ adjCmp d v1 v2 < 0 := by omega
            simp [h0, h, this]

theorem cmpKeys_neg (i j : List Int) (bd : List Bool) :
    cmpKeys j i bd = -cmpKeys i j bd := by
  induction bd generalizing i j with
  | nil => cases i <;> cases j <;> simp [cmpKeys]
  | cons d bd ih =>
    cases i with
    | nil => cases j <;> simp [cmpKeys]
    | cons v1 i =>
      cases j with
      | nil => simp [cmpKeys]
      | cons v2 j =>
        simp only [cmpKeys]
        have hn := adjCmp_neg d v1 v2
        by_cases h0 : v1 = v2
        · rw [if_pos ((adjCmp_eq_zero_iff d v1 v2).mpr h0),
            if_pos ((adjCmp_eq_zero_iff d v2 v1).mpr h0.symm)]
          exact ih i j
        · have hz1 : ¬ adjCmp d v1 v2 = 0 := fun h => h0 ((adjCmp_eq_zero_iff d v1 v2).mp h)
          have hz2 : ¬ adjCmp d v2 v1 = 0 := by omega
          rw [if_neg hz2, if_neg hz1]
          exact hn

theorem cmpKeys_self (i : List Int) (bd : List Bool) : cmpKeys i i bd = 0 := by
  have := cmpKeys_neg i i bd
  omega

/-- Transitivity of the non-strict key order, for keys covering every
compared column. -/
theorem cmpKeys_trans : ∀ (bd : List Bool) (a b c : List Int),
    bd.length ≤ a.length → bd.length ≤ b.length → bd.length ≤ c.length →
    cmpKeys a b bd ≤ 0 → cmpKeys b c bd ≤ 0 → cmpKeys a c bd ≤ 0 := by
  intro bd
  induction bd with
  | nil => intro a b c _ _ _ _ _; cases a <;> cases c <;> simp [cmpKeys]
  | cons d bd ih =>
    intro a b c ha hb hc h1 h2
    match a, b, c with
    | a0 :: as, b0 :: bs, c0 :: cs =>
      simp only [cmpKeys] at h1 h2 ⊢
      simp only [List.length_cons, Nat.succ_le_succ_iff] at ha hb hc
      by_cases hab : a0 = b0
      · rw [if_pos ((adjCmp_eq_zero_iff d a0 b0).mpr hab)] at h1
        by_cases hbc : b0 = c0
        · rw [if_pos ((adjCmp_eq_zero_iff d b0 c0).mpr hbc)] at h2
          rw [if_pos ((adjCmp_eq_zero_iff d a0 c0).mpr (hab.trans hbc))]
          exact ih as bs cs ha hb hc h1 h2
        · have hz2 : ¬ adjCmp d b0 c0 = 0 := fun h => hbc ((adjCmp_eq_zero_iff d b0 c0).mp h)
          rw [if_neg hz2] at h2
          have heq : adjCmp d a0 c0 = adjCmp d b0 c0 := by rw [hab]
          rw [if_neg (by omega)]
          omega
      · have hz1 : ¬ adjCmp d a0 b0 = 0 := fun h => hab ((adjCmp_eq_zero_iff d a0 b0).mp h)
        rw [if_neg hz1] at h1
        by_cases hbc : b0 = c0
        · have heq : adjCmp d a0 c0 = adjCmp d a0 b0 := by rw [hbc]
          rw [if_neg (by omega)]
          omega
        · have hz2 : ¬ adjCmp d b0 c0 = 0 := fun h => hbc ((adjCmp_eq_zero_iff d b0 c0).mp h)
          rw [if_neg hz2] at h2
          have hac : adjCmp d a0 c0 < 0 := @adjCmp_lt_trans d a0 b0 c0 (by omega) (by omega)
          rw [if_neg (by omega)]
          omega
    | a0 :: as, b0 :: bs, [] => exact absurd hc (by simp)
    | a0 :: as, [], c => exact absurd hb (by simp)
    | [], b, c => exact absurd ha (by simp)

/-! ### Rows and the in-memory sort -/

/-- Embedding of `comparableRow` (filesort.go:31-35). -/
structure ComparableRow where
  key : List Int
  val : List Int
  handle : Int
deriving DecidableEq, Repr

/-- The non-strict row order induced by the comparator: `a` may come
before `b` in a sorted sequence. -/
def rowLE (bd : List Bool) (a b : ComparableRow) : Prop :=
  cmpKeys a.key b.key bd ≤ 0

instance (bd : List Bool) (a b : ComparableRow) : Decidable (rowLE bd a b) := by
  unfold rowLE
  infer_instance

theorem rowLE_of_not_lessThan {bd : List Bool} {a b : ComparableRow}
    (h : lessThan b.key a.key bd = false) : rowLE bd a b := by
  rw [lessThan_eq_decide] at h
  have := cmpKeys_neg b.key a.key bd
  unfold rowLE
  simp only [decide_eq_false_iff_not, not_lt] at h
  omega

theorem rowLE_of_lessThan {bd : List Bool} {a b : ComparableRow}
    (h : lessThan a.key b.key bd = true) : rowLE bd a b := by
  rw [lessThan_eq_decide] at h
  unfold rowLE
  simp only [decide_eq_true_eq] at h
  omega

theorem rowLE_trans {bd : List Bool} {a b c : ComparableRow}
    (ha : a.key.length = bd.length) (hb : b.key.length = bd.length)
    (hc : c.key.length = bd.length)
    (h1 : rowLE bd a b) (h2 : rowLE bd b c) : rowLE bd a c :=
  cmpKeys_trans bd a.key b.key c.key (le_of_eq ha.symm) (le_of_eq hb.symm)
    (le_of_eq hc.symm) h1 h2

theorem rowLE_refl (bd : List Bool) (a : ComparableRow) : rowLE bd a a := by
  unfold rowLE
  rw [cmpKeys_self]

/-- Modelled from the spec / Go standard library: `sort.Sort(fs)` sorts
the buffer by the `Less` method, i.e. by `lessThan` on row keys
(filesort.go:216-224, 240).  `sort.Sort` is an unstable comparison
sort; it is modelled as insertion sort, which agrees with it up to the
order of rows with equal keys (on which no claim depends, and which
the spec itself leaves unspecified across a spill boundary). -/
def orderRows (bd : List Bool) (a : ComparableRow) :
    List ComparableRow → List ComparableRow
  | [] => [a]
  | b :: l => if lessThan b.key a.key bd then b :: orderRows bd a l else a :: b :: l

/-- The full buffer sort: insertion sort with `orderRows`. -/
def sortRows (bd : List Bool) : List ComparableRow → List ComparableRow
  | [] => []
  | a :: l => orderRows bd a (sortRows bd l)

theorem orderRows_perm (bd : List Bool) (a : ComparableRow) (l : List ComparableRow) :
    List.Perm (orderRows bd a l) (a :: l) := by
  induction l with
  | nil => simp [orderRows]
  | cons b l ih =>
    simp only [orderRows]
    split_ifs with h
    · exact (ih.cons b).trans (List.Perm.swap a b l)
    · exact List.Perm.refl _

theorem sortRows_perm (bd : List Bool) (l : List ComparableRow) :
    List.Perm (sortRows bd l) l := by
  induction l with
  | nil => simp [sortRows]
  | cons a l ih => exact (orderRows_perm bd a (sortRows bd l)).trans (ih.cons a)

theorem orderRows_pairwise (bd : List Bool) (a : ComparableRow) (l : List ComparableRow)
    (hlen : ∀ r ∈ a :: l, r.key.length = bd.length)
    (hl : l.Pairwise (rowLE bd)) : (orderRows bd a l).Pairwise (rowLE bd) := by
  induction l with
  | nil => simp [orderRows]
  | cons b l ih =>
    simp only [orderRows]
    rcases List.pairwise_cons.mp hl with ⟨hbl, hpl⟩
    split_ifs with h
    · refine List.pairwise_cons.mpr ⟨?_, ?_⟩
      · intro x hx
        rcases List.mem_cons.mp (((orderRows_perm bd a l).mem_iff).mp hx) with hxa | hxl
        · subst hxa
          exact rowLE_of_lessThan h
        · exact hbl x hxl
      · refine ih ?_ hpl
        intro r hr
        rcases List.mem_cons.mp hr with hr | hr
        · exact hr ▸ hlen a (by simp)
        · exact hlen r (List.mem_cons_of_mem a (List.mem_cons_of_mem b hr))
    · refine List.pairwise_cons.mpr ⟨?_, hl⟩
      intro x hx
      have hab : rowLE bd a b := rowLE_of_not_lessThan (by simpa using h)
      rcases List.mem_cons.mp hx with hxb | hxl
      · exact hxb ▸ hab
      · exact rowLE_trans (hlen a (by simp)) (hlen b (by simp))
          (hlen x (by simp [hxl])) hab (hbl x hxl)

theorem sortRows_pairwise (bd : List Bool) (l : List ComparableRow)
    (hlen : ∀ r ∈ l, r.key.length = bd.length) :
    (sortRows bd l).Pairwise (rowLE bd) := by
  induction l with
  | nil => simp [sortRows]
  | cons a l ih =>
    simp only [sortRows]
    refine orderRows_pairwise bd a (sortRows bd l) ?_ ?_
    · intro r hr
      rcases List.mem_cons.mp hr with hr | hr
      · exact hr ▸ hlen a (by simp)
      · exact hlen r (List.mem_cons_of_mem a (((sortRows_perm bd l).mem_iff).mp hr))
    · exact ih (fun r hr => hlen r (List.mem_cons_of_mem a hr))

theorem sortRows_mem_iff (bd : List Bool) (l : List ComparableRow) (r : ComparableRow) :
    r ∈ sortRows bd l ↔ r ∈ l := (sortRows_perm bd l).mem_iff

/-! ### The row codec and the run-file record format -/

/-- Modelled from the spec: the digits part of the external codec
collaborator's integer encoding.  The spec treats the codec as an
external collaborator producing a self-delimiting encoding that must
round-trip exactly; it is realised here as little-endian base-255
digits closed by a 255 terminator byte. -/
def encodeNatAux : Nat → Nat → List UInt8
  | 0, _ => [255]
  | fuel + 1, n =>
    if n = 0 then [255] else UInt8.ofNat (n % 255) :: encodeNatAux fuel (n / 255)

/-- The digit encoding of `n` (the fuel `n` itself always suffices). -/
def encodeNat (n : Nat) : List UInt8 :=
  encodeNatAux n n

/-- Decoder for `encodeNat`. -/
def decodeNat : List UInt8 → Option (Nat × List UInt8)
  | [] => none
  | b :: rest =>
    if b = 255 then some (0, rest)
    else
      match decodeNat rest with
      | some (n, rem) => some (b.toNat + 255 * n, rem)
      | none => none

theorem uint8_toNat_ofNat (n : Nat) : (UInt8.ofNat n).toNat = n % 256 := rfl

theorem decodeNat_encodeNatAux :
    ∀ (fuel n : Nat), n ≤ fuel → ∀ (tail : List UInt8),
    decodeNat (encodeNatAux fuel n ++ tail) = some (n, tail) := by
  intro fuel
  induction fuel with
  | zero =>
    intro n hn tail
    have h0 : n = 0 := Nat.le_zero.mp hn
    subst h0
    simp [encodeNatAux, decodeNat]
  | succ fuel ih =>
    intro n hn tail
    by_cases h : n = 0
    · subst h
      simp [encodeNatAux, decodeNat]
    · rw [encodeNatAux, if_neg h]
      have hb : ¬ (UInt8.ofNat (n % 255) = 255) := by
        intro hc
        have h2 : (UInt8.ofNat (n % 255)).toNat = 255 := by rw [hc]; rfl
        rw [uint8_toNat_ofNat] at h2
        have hlt : n % 255 < 255 := Nat.mod_lt _ (by norm_num)
        omega
      simp only [List.cons_append, decodeNat, if_neg hb]
      have hdiv : n / 255 ≤ fuel := by
        have := Nat.div_lt_self (Nat.pos_of_ne_zero h) (show 1 < 255 by norm_num)
        omega
      rw [show (encodeNatAux fuel (n / 255)).append tail =
        encodeNatAux fuel (n / 255) ++ tail from rfl, ih (n / 255) hdiv tail]
      have hv : (UInt8.ofNat (n % 255)).toNat = n % 255 := by
        rw [uint8_toNat_ofNat]
        exact Nat.mod_eq_of_lt (lt_trans (Nat.mod_lt _ (by norm_num)) (by norm_num))
      rw [hv]
      have := Nat.mod_add_div n 255
      simp only [Option.some_inj, Prod.mk.injEq]
      exact ⟨by omega, trivial⟩

theorem decodeNat_encodeNat (n : Nat) (tail : List UInt8) :
    decodeNat (encodeNat n ++ tail) = some (n, tail) :=
  decodeNat_encodeNatAux n n (le_refl n) tail

/-- Modelled from the spec: the external codec collaborator's encoding
of one integer datum (a sign byte, then the magnitude digits). -/
def encodeDatum (d : Int) : List UInt8 :=
  (if d < 0 then (1 : UInt8) else 0) :: encodeNat d.natAbs

/-- Decoder for `encodeDatum`. -/
def decodeDatum : List UInt8 → Option (Int × List UInt8)
  | [] => none
  | s :: rest =>
    match decodeNat rest with
    | some (n, rem) => some (if s = 1 then -(n : Int) else (n : Int), rem)
    | none => none

theorem decodeDatum_encodeDatum (d : Int) (tail : List UInt8) :
    decodeDatum (encodeDatum d ++ tail) = some (d, tail) := by
  simp only [encodeDatum, List.cons_append, decodeDatum,
    decodeNat_encodeNat d.natAbs tail]
  by_cases h : d < 0
  · rw [if_pos h, if_pos rfl]
    simp only [Option.some_inj, Prod.mk.injEq]
    exact ⟨by omega, trivial⟩
  · rw [if_neg h, if_neg (by decide)]
    simp only [Option.some_inj, Prod.mk.injEq]
    exact ⟨by omega, trivial⟩

theorem encodeDatum_ne_nil (d : Int) : encodeDatum d ≠ [] := by
  simp [encodeDatum]

/-- Modelled from the spec: `codec.EncodeKey(b, datums...)` appends the
encoding of each datum in order. -/
def encodeDatums : List Int → List UInt8
  | [] => []
  | d :: ds => encodeDatum d ++ encodeDatums ds

theorem encodeDatums_append (xs ys : List Int) :
    encodeDatums (xs ++ ys) = encodeDatums xs ++ encodeDatums ys := by
  induction xs with
  | nil => simp [encodeDatums]
  | cons d ds ih => simp [encodeDatums, ih]

/-- Fuelled decoding loop for `decodeAll`. -/
def decodeAllAux : Nat → List UInt8 → Option (List Int)
  | _, [] => some []
  | 0, _ :: _ => none
  | fuel + 1, b :: rest =>
    match decodeDatum (b :: rest) with
    | some (d, rem) =>
      match decodeAllAux fuel rem with
      | some ds => some (d :: ds)
      | none => none
    | none => none

/-- Modelled from the spec: `codec.Decode(b, size)` decodes every datum
contained in `b` (the size argument is only a capacity hint). -/
def decodeAll (b : List UInt8) : Option (List Int) :=
  decodeAllAux b.length b

theorem decodeAllAux_encodeDatums :
    ∀ (ds : List Int) (fuel : Nat), (encodeDatums ds).length ≤ fuel →
    decodeAllAux fuel (encodeDatums ds) = some ds := by
  intro ds
  induction ds with
  | nil => intro fuel _; simp [encodeDatums, decodeAllAux]
  | cons d ds ih =>
    intro fuel hfuel
    have hne : encodeDatums (d :: ds) = encodeDatum d ++ encodeDatums ds := rfl
    rcases hcons : encodeDatum d ++ encodeDatums ds with _ | ⟨b, rest⟩
    · exact absurd hcons (by
        cases hd : encodeDatum d with
        | nil => exact absurd hd (encodeDatum_ne_nil d)
        | cons x xs => simp [hd])
    · rw [hne, hcons] at hfuel ⊢
      cases fuel with
      | zero => simp at hfuel
      | succ fuel =>
        have hdec : decodeDatum (b :: rest) = some (d, encodeDatums ds) := by
          rw [← hcons]
          exact decodeDatum_encodeDatum d (encodeDatums ds)
        simp only [decodeAllAux, hdec]
        have hlen : (encodeDatums ds).length ≤ fuel := by
          have h1 : (encodeDatum d).length + (encodeDatums ds).length = (b :: rest).length := by
            rw [← List.length_append, hcons]
          have h2 : 1 ≤ (encodeDatum d).length := by
            cases hd : encodeDatum d with
            | nil => exact absurd hd (encodeDatum_ne_nil d)
            | cons x xs => simp
          simp only [List.length_cons] at hfuel h1
          omega
        rw [ih fuel hlen]

theorem decodeAll_encodeDatums (ds : List Int) :
    decodeAll (encodeDatums ds) = some ds :=
  decodeAllAux_encodeDatums ds (encodeDatums ds).length (le_refl _)

/-- Embedding of `binary.BigEndian.PutUint64(head, uint64(len(body)))`
(filesort.go:255, 270): the 8 big-endian bytes of `n` modulo 2^64. -/
def u64be (n : Nat) : List UInt8 :=
  [UInt8.ofNat (n / 2 ^ 56), UInt8.ofNat (n / 2 ^ 48), UInt8.ofNat (n / 2 ^ 40),
   UInt8.ofNat (n / 2 ^ 32), UInt8.ofNat (n / 2 ^ 24), UInt8.ofNat (n / 2 ^ 16),
   UInt8.ofNat (n / 2 ^ 8), UInt8.ofNat n]

/-- Embedding of `binary.BigEndian.Uint64(head)` (filesort.go:338). -/
def beToNat (l : List UInt8) : Nat :=
  l.foldl (fun acc b => acc * 256 + b.toNat) 0

theorem u64be_length (n : Nat) : (u64be n).length = 8 := rfl

theorem beToNat_u64be (n : Nat) (h : n < 2 ^ 64) : beToNat (u64be n) = n := by
  simp only [beToNat, u64be, List.foldl, uint8_toNat_ofNat]
  omega

/-- The encoded body of one row as written by `flushToFile`
(filesort.go:253-268): encoded key columns, then encoded value
columns, then the encoded handle. -/
def rowBody (r : ComparableRow) : List UInt8 :=
  encodeDatums r.key ++ encodeDatums r.val ++ encodeDatum r.handle

/-- One run-file record (filesort.go:270-273): 8-byte big-endian
unsigned length, then the body. -/
def recordOf (r : ComparableRow) : List UInt8 :=
  u64be (rowBody r).length ++ rowBody r

/-- The byte content of a whole run file: the concatenated records of
the rows written to it. -/
def bytesOfRows (rows : List ComparableRow) : List UInt8 :=
  (rows.map recordOf).flatten

theorem bytesOfRows_nil : bytesOfRows [] = [] := rfl

theorem bytesOfRows_cons (r : ComparableRow) (rs : List ComparableRow) :
    bytesOfRows (r :: rs) = recordOf r ++ bytesOfRows rs := by
  simp [bytesOfRows]

/-- A row is well formed for schema `(k, v)`: its key and value lengths
match the configured column counts and its encoded body is shorter
than 2^64 bytes, so the record's length field does not overflow the
program's unsigned 64-bit header. -/
def RowWF (k v : Nat) (r : ComparableRow) : Prop :=
  r.key.length = k ∧ r.val.length = v ∧ (rowBody r).length < 2 ^ 64

instance (k v : Nat) (r : ComparableRow) : Decidable (RowWF k v r) := by
  unfold RowWF
  infer_instance

/-- Embedding of `fetchNextRow` (filesort.go:321-360), acting on the
remaining unread bytes of one open run file.  Go's `File.Read` on a
regular file fills the buffer when enough bytes remain, returns a
short count with a nil error when fewer (but more than zero) remain,
and returns `(0, io.EOF)` at end of file; the out-of-range slice
accesses that Go would panic on are modelled as errors. -/
def fetchCore (keySize valSize : Nat) (fd : List UInt8) :
    Option String × Option ComparableRow × List UInt8 :=
  if fd.isEmpty then (none, none, fd)
  else if fd.length < 8 then (some "incorrect header", none, fd.drop 8)
  else if (fd.drop 8).length < beToNat (fd.take 8) then
    if (fd.drop 8).isEmpty then (some "EOF", none, fd.drop 8)
    else (some "incorrect row", none, (fd.drop 8).drop (beToNat (fd.take 8)))
  else
    match decodeAll ((fd.drop 8).take (beToNat (fd.take 8))) with
    | none => (some "decode error", none, (fd.drop 8).drop (beToNat (fd.take 8)))
    | some dcod =>
      if h : keySize + valSize < dcod.length then
        (none, some ⟨dcod.take keySize, (dcod.drop keySize).take valSize,
          dcod.get ⟨keySize + valSize, h⟩⟩, (fd.drop 8).drop (beToNat (fd.take 8)))
      else (some "index out of range", none, (fd.drop 8).drop (beToNat (fd.take 8)))

theorem rowBody_eq_encodeDatums (r : ComparableRow) :
    rowBody r = encodeDatums (r.key ++ r.val ++ [r.handle]) := by
  simp only [rowBody, encodeDatums_append]
  simp [encodeDatums]

/-- The record round-trip: one record written by `flushToFile` is read
back by `fetchNextRow` exactly, leaving the remaining bytes intact. -/
theorem fetchCore_record (k v : Nat) (r : ComparableRow) (tail : List UInt8)
    (hwf : RowWF k v r) :
    fetchCore k v (recordOf r ++ tail) = (none, some r, tail) := by
  rcases hwf with ⟨hk, hv, hb⟩
  have hrec : recordOf r ++ tail = u64be (rowBody r).length ++ (rowBody r ++ tail) := by
    simp [recordOf]
  rw [hrec]
  have h8 : (u64be (rowBody r).length).length = 8 := u64be_length _
  have htake : (u64be (rowBody r).length ++ (rowBody r ++ tail)).take 8 =
      u64be (rowBody r).length := by
    rw [← h8]
    exact List.take_left _ _
  have hdrop : (u64be (rowBody r).length ++ (rowBody r ++ tail)).drop 8 =
      rowBody r ++ tail := by
    rw [← h8]
    exact List.drop_left _ _
  have hne : (u64be (rowBody r).length ++ (rowBody r ++ tail)).isEmpty = false := by
    simp [u64be]
  have hlen : 8 ≤ (u64be (rowBody r).length ++ (rowBody r ++ tail)).length := by
    rw [List.length_append, h8]
    omega
  rw [fetchCore, hne, if_neg (by simp), htake, hdrop]
  rw [beToNat_u64be _ hb]
  have hrest : ¬ ((rowBody r ++ tail).length < (rowBody r).length) := by
    rw [List.length_append]
    omega
  rw [if_neg (by omega), if_neg hrest]
  have htake2 : (rowBody r ++ tail).take (rowBody r).length = rowBody r :=
    List.take_left _ _
  have hdrop2 : (rowBody r ++ tail).drop (rowBody r).length = tail :=
    List.drop_left _ _
  rw [htake2, hdrop2, rowBody_eq_encodeDatums, decodeAll_encodeDatums]
  have hdlen : (r.key ++ r.val ++ [r.handle]).length = k + v + 1 := by
    simp [hk, hv]
    omega
  have hidx : k + v < (r.key ++ r.val ++ [r.handle]).length := by omega
  dsimp only
  rw [dif_pos hidx]
  have hkey : (r.key ++ r.val ++ [r.handle]).take k = r.key := by
    rw [List.append_assoc, ← hk]
    exact List.take_left _ _
  have hval : ((r.key ++ r.val ++ [r.handle]).drop k).take v = r.val := by
    rw [List.append_assoc, ← hk, List.drop_left, ← hv]
    exact List.take_left _ _
  have hhandle : (r.key ++ r.val ++ [r.handle]).get ⟨k + v, hidx⟩ = r.handle := by
    have hkv : k + v = (r.key ++ r.val).length := by simp [hk, hv]
    rw [List.get_eq_getElem]
    simp only [hkv]
    exact List.getElem_concat_length _ _ _ rfl _
  rw [hkey, hval, hhandle]

/-! ### The merge heap -/

/-- Embedding of `item` (filesort.go:37-40): the source-file index and
the row read from it. -/
structure HeapItem where
  index : Nat
  value : ComparableRow
deriving DecidableEq, Repr

/-- Modelled from the spec / Go standard library: `container/heap` over
`rowHeap` (filesort.go:43-102) is a min-heap ordered by `lessThan` on
row keys.  It is modelled by the list of its elements: `heap.Push`
appends, and `heap.Pop` removes a minimal element (here the leftmost
minimal one), which is the only behaviour the merge observes. -/
def popMin1 (bd : List Bool) (a : HeapItem) : List HeapItem → HeapItem × List HeapItem
  | [] => (a, [])
  | b :: l =>
    if lessThan (popMin1 bd b l).1.value.key a.value.key bd
    then ((popMin1 bd b l).1, a :: (popMin1 bd b l).2)
    else (a, b :: l)

/-- The heap pop: removes the leftmost minimal element. -/
def popMin (bd : List Bool) : List HeapItem → Option (HeapItem × List HeapItem)
  | [] => none
  | a :: l => some (popMin1 bd a l)

theorem popMin1_perm (bd : List Bool) (a : HeapItem) (l : List HeapItem) :
    List.Perm ((popMin1 bd a l).1 :: (popMin1 bd a l).2) (a :: l) := by
  induction l generalizing a with
  | nil => simp [popMin1]
  | cons b l ih =>
    simp only [popMin1]
    split_ifs with h
    · exact (List.Perm.swap a (popMin1 bd b l).1 (popMin1 bd b l).2).trans ((ih b).cons a)
    · exact List.Perm.refl _

theorem popMin1_mem (bd : List Bool) (a : HeapItem) (l : List HeapItem) :
    (popMin1 bd a l).1 ∈ a :: l :=
  ((popMin1_perm bd a l).mem_iff).mp (by simp)

/-- The element returned by the heap pop is minimal: every element of
the heap (whose keys cover the compared columns) is at or above it. -/
theorem popMin1_min (bd : List Bool) (a : HeapItem) (l : List HeapItem)
    (hlen : ∀ x ∈ a :: l, x.value.key.length = bd.length) :
    ∀ x ∈ a :: l, rowLE bd (popMin1 bd a l).1.value x.value := by
  induction l generalizing a with
  | nil =>
    intro x hx
    rcases List.mem_cons.mp hx with hx | hx
    · subst hx
      simp only [popMin1]
      exact rowLE_refl bd _
    · simp at hx
  | cons b l ih =>
    have hlen2 : ∀ x ∈ b :: l, x.value.key.length = bd.length :=
      fun x hx => hlen x (List.mem_cons_of_mem a hx)
    have hpm := ih b hlen2
    intro x hx
    simp only [popMin1]
    split_ifs with h
    · rcases List.mem_cons.mp hx with hx | hx
      · subst hx
        exact rowLE_of_lessThan h
      · exact hpm x hx
    · rcases List.mem_cons.mp hx with hx | hx
      · subst hx
        exact rowLE_refl bd _
      · have hap : rowLE bd a.value (popMin1 bd b l).1.value :=
          rowLE_of_not_lessThan (by simpa using h)
        have hpx : rowLE bd (popMin1 bd b l).1.value x.value := hpm x hx
        exact rowLE_trans (hlen a (by simp))
          (hlen2 _ (popMin1_mem bd b l))
          (hlen x (List.mem_cons_of_mem a hx)) hap hpx

/-! ### The FileSorter state machine -/

/-- Embedding of `FileSorter` (filesort.go:106-122).  `files` holds the
byte contents of the run files in creation order (their on-disk names
are the consecutive integers `0, 1, ...` under `tmpDir`, so the name
list and the directory contents coincide); `fds` holds the unread
remainder of each opened run file; `tmpDirExists` is the filesystem
state of the working directory; the `err` field is absent because the
modelled comparator never fails. -/
structure FileSorter where
  keySize : Nat
  valSize : Nat
  bufSize : Nat
  buf : List ComparableRow
  files : List (List UInt8)
  byDesc : List Bool
  cursor : Nat
  closed : Bool
  fetched : Bool
  heap : List HeapItem
  fds : List (List UInt8)
  fileCount : Nat
  tmpDirExists : Bool
deriving DecidableEq, Repr

/-- The `FileSorter` that `Build` returns (filesort.go:196-206), with
the working directory verified to exist. -/
def newFileSorter (keySize valSize bufSize : Nat) (byDesc : List Bool) : FileSorter :=
  { keySize := keySize, valSize := valSize, bufSize := bufSize,
    buf := [], files := [], byDesc := byDesc, cursor := 0,
    closed := false, fetched := false, heap := [], fds := [],
    fileCount := 0, tmpDirExists := true }

/-- Embedding of `flushToFile` (filesort.go:233-284): sort the buffer
in place, allocate the next numbered file name, create the file (this
fails when the working directory has been removed), write one record
per buffered row, register the file and clear the buffer. -/
def flushToFile (fs : FileSorter) : Option String × FileSorter :=
  if fs.tmpDirExists then
    (none, { fs with
      buf := [],
      files := fs.files ++ [bytesOfRows (sortRows fs.byDesc fs.buf)],
      fileCount := fs.fileCount + 1 })
  else
    (some "open file failed",
     { fs with buf := sortRows fs.byDesc fs.buf, fileCount := fs.fileCount + 1 })

/-- Embedding of `Input` (filesort.go:288-318). -/
def input (fs : FileSorter) (key val : List Int) (handle : Int) :
    Option String × FileSorter :=
  if fs.closed then (some "FileSorter has been closed", fs)
  else if fs.fetched then (some "call input after output", fs)
  else if key.length ≠ fs.keySize then (some "mismatch in key size and key slice", fs)
  else if val.length ≠ fs.valSize then (some "mismatch in value size and val slice", fs)
  else if fs.buf.length ≥ fs.bufSize then
    match flushToFile fs with
    | (some msg, fs2) => (some msg, fs2)
    | (none, fs2) => (none, { fs2 with buf := fs2.buf ++ [⟨key, val, handle⟩] })
  else (none, { fs with buf := fs.buf ++ [⟨key, val, handle⟩] })

/-- Embedding of `openAllFiles` (filesort.go:362-371): open every run
file; each opened descriptor starts at the file's full contents. -/
def openAllFiles (fs : FileSorter) : Option String × FileSorter :=
  if fs.tmpDirExists then (none, { fs with fds := fs.fds ++ fs.files })
  else (some "open file failed", fs)

/-- Embedding of `fetchNextRow` (filesort.go:321-360) on the sorter
state: read one record from `fds[index]` and store back the unread
remainder. -/
def fetchNextRow (fs : FileSorter) (index : Nat) :
    Option String × Option ComparableRow × FileSorter :=
  match fetchCore fs.keySize fs.valSize (fs.fds.getD index []) with
  | (e, r, rest) => (e, r, { fs with fds := fs.fds.set index rest })

/-- The cursor-advancing tail of `internalSort` (filesort.go:437-442). -/
def internalSortServe (fs : FileSorter) : Option String × Option ComparableRow × FileSorter :=
  if h : fs.cursor < fs.buf.length then
    (none, some (fs.buf.get ⟨fs.cursor, h⟩), { fs with cursor := fs.cursor + 1 })
  else (none, none, fs)

/-- Embedding of `internalSort` (filesort.go:429-443): on the first
call sort the buffer and mark the sorter fetched, then serve one row
per call by advancing the cursor. -/
def internalSort (fs : FileSorter) : Option String × Option ComparableRow × FileSorter :=
  internalSortServe
    (if fs.fetched then fs
     else { fs with buf := sortRows fs.byDesc fs.buf, fetched := true })

/-- The heap-priming loop of `externalSort` (filesort.go:465-483): read
one row from each run file in index order (`id` is the next index, the
second argument the number of indices left) and push it on the heap; a
run that yields no row is the fatal "file is empty" error. -/
def primeLoop (fs : FileSorter) : Nat → Nat → Option String × FileSorter
  | _, 0 => (none, fs)
  | id, n + 1 =>
    match fetchNextRow fs id with
    | (some msg, _, fs2) => (some msg, fs2)
    | (none, none, fs2) => (some "file is empty", fs2)
    | (none, some row, fs2) =>
      primeLoop { fs2 with heap := fs2.heap ++ [⟨id, row⟩] } (id + 1) n

/-- The per-call merge step of `externalSort` (filesort.go:488-513):
pop the heap minimum, read the next row from the popped run, push the
replacement if that run is not exhausted, and return the popped row. -/
def externalSortStep (fs : FileSorter) : Option String × Option ComparableRow × FileSorter :=
  match popMin fs.byDesc fs.heap with
  | none => (none, none, fs)
  | some (im, rest) =>
    match fetchNextRow { fs with heap := rest } im.index with
    | (some msg, _, fs2) => (some msg, none, fs2)
    | (none, some row, fs2) =>
      (none, some im.value, { fs2 with heap := fs2.heap ++ [⟨im.index, row⟩] })
    | (none, none, fs2) => (none, some im.value, fs2)

/-- The one-time preparation of `externalSort` (filesort.go:447-486):
flush any buffered rows as a final run, open every run file, prime the
heap with one row per run, and mark the sorter fetched.  (`heap.Init`
runs on the still-empty heap and is a no-op.) -/
def externalSortPrep (fs : FileSorter) : Option String × FileSorter :=
  match (if fs.buf.length > 0 then flushToFile fs else (none, fs)) with
  | (some msg, fs1) => (some msg, fs1)
  | (none, fs1) =>
    match openAllFiles fs1 with
    | (some msg, fs2) => (some msg, fs2)
    | (none, fs2) =>
      match primeLoop fs2 0 fs2.fds.length with
      | (some msg, fs3) => (some msg, fs3)
      | (none, fs3) => (none, { fs3 with fetched := true })

/-- Embedding of `externalSort` (filesort.go:446-514). -/
def externalSort (fs : FileSorter) : Option String × Option ComparableRow × FileSorter :=
  match (if fs.fetched then (none, fs) else externalSortPrep fs) with
  | (some msg, fs4) => (some msg, none, fs4)
  | (none, fs4) => externalSortStep fs4

/-- Embedding of `Output` (filesort.go:402-426). -/
def output (fs : FileSorter) : Option String × Option ComparableRow × FileSorter :=
  if fs.closed then (some "FileSorter has been closed", none, fs)
  else if fs.files.length = 0 then internalSort fs
  else externalSort fs

/-- Embedding of `closeAllFiles` (filesort.go:373-385): close every
open descriptor, then `os.RemoveAll(tmpDir)` — deleting the working
directory and every run file inside it (`RemoveAll` succeeds even when
the path no longer exists). -/
def closeAllFiles (fs : FileSorter) : Option String × FileSorter :=
  (none, { fs with files := [], tmpDirExists := false })

/-- Embedding of `Close` (filesort.go:388-399). -/
def close (fs : FileSorter) : Option String × FileSorter :=
  if fs.closed then (some "FileSorter has been closed", fs)
  else
    match closeAllFiles { fs with buf := [] } with
    | (some msg, fs1) => (some msg, fs1)
    | (none, fs1) => (none, { fs1 with closed := true })

/-- Embedding of `Builder` (filesort.go:125-163).  The statement
context is modelled by whether `SetSC` supplied one; the working
directory by whether `os.Stat` finds it; Go `int` fields may hold
non-positive values, hence `Int`. -/
structure Builder where
  scSet : Bool
  keySize : Int
  valSize : Int
  bufSize : Int
  byDesc : List Bool
  tmpDirExists : Bool
deriving DecidableEq, Repr

/-- Embedding of `Build` (filesort.go:166-207): the sanity checks in
source order, then the constructed sorter. -/
def build (b : Builder) : Option String × Option FileSorter :=
  if ¬ b.scSet then (some "StatementContext is nil", none)
  else if b.keySize ≠ (b.byDesc.length : Int) then
    (some "mismatch in key size and byDesc slice", none)
  else if b.keySize ≤ 0 then (some "key size is not positive", none)
  else if b.valSize ≤ 0 then (some "value size is not positive", none)
  else if b.bufSize ≤ 0 then (some "buffer size is not positive", none)
  else if ¬ b.tmpDirExists then (some "tmpDir does not exist", none)
  else (none, some (newFileSorter b.keySize.toNat b.valSize.toNat b.bufSize.toNat b.byDesc))

/-- Feeding a list of rows through `Input` in order, stopping at the
first error, as a caller would. -/
def inputAll (fs : FileSorter) : List ComparableRow → Option String × FileSorter
  | [] => (none, fs)
  | r :: rs =>
    match input fs r.key r.val r.handle with
    | (some msg, fs1) => (some msg, fs1)
    | (none, fs1) => inputAll fs1 rs

/-- Calling `Output` repeatedly until it reports end-of-data or an
error, collecting the returned rows; `fuel` bounds the number of
calls. -/
def drain (fuel : Nat) (fs : FileSorter) : Option String × List ComparableRow × FileSorter :=
  match fuel with
  | 0 => (some "out of fuel", [], fs)
  | fuel + 1 =>
    match output fs with
    | (some msg, _, fs1) => (some msg, [], fs1)
    | (none, none, fs1) => (none, [], fs1)
    | (none, some r, fs1) =>
      match drain fuel fs1 with
      | (e, rs, fs2) => (e, r :: rs, fs2)

/-! ### The executor: subprocess arguments and start retry -/

/-- The fields of `pb.Instruction.GetScript()` used by
`executeInstruction` (part_003:211-238). -/
structure Script where
  isPipe : Bool
  path : String
  args : List String
deriving DecidableEq, Repr

/-- The fields of `pb.Instruction` used by `executeInstruction`. -/
structure Instruction where
  name : String
  stepId : Int
  taskId : Int
  script : Option Script
deriving DecidableEq, Repr

/-- The fields of `pb.InstructionSet` used by `executeInstruction`. -/
structure InstructionSet where
  flowHashCode : Nat
  isProfiling : Bool
deriving DecidableEq, Repr

/-- The last path component, modelling Go's `filepath.Base` from the
standard library (the path relocation is incidental to the argument
contract the claims are about). -/
def baseName (p : String) : String :=
  ((p.splitOn "/").filter (fun c => c ≠ "")).getLastD (if p = "" then "." else "/")

/-- Embedding of the script preparation of `executeInstruction`
(part_003:218-229): for a non-pipe script the executor appends
`-gleam.executor <callback-address>`, `-flow.hashcode`, `-flow.stepId`
and `-flow.taskId`, appends `-gleam.profiling` when the instruction
set's profiling flag is set, and relocates the executable into the
task directory; a pipe script is left untouched. -/
def prepareScript (grpcAddress dir : String) (is : InstructionSet) (i : Instruction)
    (s : Script) : Script :=
  if s.isPipe then s
  else
    { s with
      args := s.args ++
        ["-gleam.executor", grpcAddress,
         "-flow.hashcode", toString is.flowHashCode,
         "-flow.stepId", toString i.stepId,
         "-flow.taskId", toString i.taskId] ++
        (if is.isProfiling then ["-gleam.profiling"] else []),
      path := dir ++ "/" ++ baseName s.path }

/-- The outcome of one `util.Execute` attempt: the error it returned
and the number of input bytes it consumed (which `util.Execute` adds
onto the instruction's cumulative `InputCounter`). -/
structure AttemptOutcome where
  err : Option String
  bytesRead : Nat

/-- The observable result of the retry loop of `executeInstruction`
(part_003:233-246). -/
structure RetryResult where
  attemptsMade : Nat
  sleeps : Nat
  inputCounter : Nat
  err : Option String
deriving DecidableEq, Repr

/-- Embedding of the `for x := 0; x < 3; x++` retry loop
(part_003:233-246): run attempt `x`, add its consumed bytes to the
cumulative input counter, break when the attempt succeeded or the
counter is non-zero, otherwise log, sleep one second, and retry. -/
def retryGo (attempt : Nat → AttemptOutcome) :
    Nat → Nat → Nat → Nat → Option String → RetryResult
  | 0, x, counter, sleeps, err => ⟨x, sleeps, counter, err⟩
  | n + 1, x, counter, sleeps, _ =>
    if (attempt x).err = none ∨ counter + (attempt x).bytesRead ≠ 0 then
      ⟨x + 1, sleeps, counter + (attempt x).bytesRead, (attempt x).err⟩
    else
      retryGo attempt n (x + 1) (counter + (attempt x).bytesRead) (sleeps + 1) (attempt x).err

/-- The whole retry loop, starting from attempt 0 with a zero input
counter. -/
def retryExec (attempt : Nat → AttemptOutcome) : RetryResult :=
  retryGo attempt 3 0 0 0 none

/-- The message sent to the execution-error channel after the loop
(part_003:247-249), wrapping the instruction's name. -/
def exeErrSent (i : Instruction) (res : RetryResult) : Option String :=
  match res.err with
  | none => none
  | some e => some ("Failed executing command " ++ i.name ++ ": " ++ e)

/-- The input counter accumulated by the first `j` attempts. -/
def cumBytes (attempt : Nat → AttemptOutcome) : Nat → Nat
  | 0 => 0
  | j + 1 => cumBytes attempt j + (attempt j).bytesRead

/-! ### Claims C4 and C8: the executor -/

/-- C4: for every external-process stage, the executor attempts the
subprocess at most 3 times, sleeping one second after each failed
zero-input attempt; an attempt is retried exactly when it failed with
the input counter still zero; an attempt that consumed bytes is never
retried; and the error that survives the loop is sent to the
execution-error channel wrapped with the instruction's name. -/
theorem claim_C4 (attempt : Nat → AttemptOutcome) (i : Instruction) :
    (1 ≤ (retryExec attempt).attemptsMade ∧ (retryExec attempt).attemptsMade ≤ 3) ∧
    (∀ j, j + 1 < (retryExec attempt).attemptsMade →
      (attempt j).err ≠ none ∧ cumBytes attempt (j + 1) = 0) ∧
    ((retryExec attempt).attemptsMade < 3 →
      ((attempt ((retryExec attempt).attemptsMade - 1)).err = none ∨
        cumBytes attempt ((retryExec attempt).attemptsMade) ≠ 0)) ∧
    (∀ j, j < (retryExec attempt).attemptsMade → cumBytes attempt (j + 1) ≠ 0 →
      (retryExec attempt).attemptsMade = j + 1) ∧
    ((retryExec attempt).err = (attempt ((retryExec attempt).attemptsMade - 1)).err) ∧
    ((retryExec attempt).inputCounter = cumBytes attempt ((retryExec attempt).attemptsMade)) ∧
    (((retryExec attempt).err = none ∨ (retryExec attempt).inputCounter ≠ 0) →
      (retryExec attempt).sleeps = (retryExec attempt).attemptsMade - 1) ∧
    (((retryExec attempt).err ≠ none ∧ (retryExec attempt).inputCounter = 0) →
      (retryExec attempt).sleeps = (retryExec attempt).attemptsMade) ∧
    (∀ e, (retryExec attempt).err = some e →
      exeErrSent i (retryExec attempt) =
        some ("Failed executing command " ++ i.name ++ ": " ++ e)) ∧
    ((retryExec attempt).err = none → exeErrSent i (retryExec attempt) = none) := by
  have h1 : cumBytes attempt 1 = (attempt 0).bytesRead := by
    simp [cumBytes]
  have h2 : cumBytes attempt 2 = cumBytes attempt 1 + (attempt 1).bytesRead := rfl
  have h3 : cumBytes attempt 3 = cumBytes attempt 2 + (attempt 2).bytesRead := rfl
  have e3 : retryExec attempt =
      if (attempt 0).err = none ∨ 0 + (attempt 0).bytesRead ≠ 0
      then ⟨1, 0, 0 + (attempt 0).bytesRead, (attempt 0).err⟩
      else retryGo attempt 2 1 (0 + (attempt 0).bytesRead) 1 (attempt 0).err := rfl
  have e2 : ∀ (c : Nat) (e : Option String), retryGo attempt 2 1 c 1 e =
      if (attempt 1).err = none ∨ c + (attempt 1).bytesRead ≠ 0
      then ⟨2, 1, c + (attempt 1).bytesRead, (attempt 1).err⟩
      else retryGo attempt 1 2 (c + (attempt 1).bytesRead) 2 (attempt 1).err :=
    fun c e => rfl
  have e1 : ∀ (c : Nat) (e : Option String), retryGo attempt 1 2 c 2 e =
      if (attempt 2).err = none ∨ c + (attempt 2).bytesRead ≠ 0
      then ⟨3, 2, c + (attempt 2).bytesRead, (attempt 2).err⟩
      else retryGo attempt 0 3 (c + (attempt 2).bytesRead) 3 (attempt 2).err :=
    fun c e => rfl
  have e0 : ∀ (c : Nat) (e : Option String), retryGo attempt 0 3 c 3 e = ⟨3, 3, c, e⟩ :=
    fun c e => rfl
  by_cases hB0 : (attempt 0).err = none ∨ 0 + (attempt 0).bytesRead ≠ 0
  · have hres : retryExec attempt = ⟨1, 0, (attempt 0).bytesRead, (attempt 0).err⟩ := by
      rw [e3, if_pos hB0, Nat.zero_add]
    have hA : (retryExec attempt).attemptsMade = 1 := by rw [hres]
    have hS : (retryExec attempt).sleeps = 0 := by rw [hres]
    have hC : (retryExec attempt).inputCounter = (attempt 0).bytesRead := by rw [hres]
    have hE : (retryExec attempt).err = (attempt 0).err := by rw [hres]
    refine ⟨⟨by omega, by omega⟩, ?_, ?_, ?_, ?_, ?_, ?_, ?_, ?_, ?_⟩
    · intro j hj
      rw [hA] at hj
      omega
    · intro _
      rw [hA, h1]
      simpa using hB0
    · intro j hj _
      rw [hA] at hj ⊢
      omega
    · rw [hE, hA]
    · rw [hC, hA, h1]
    · intro _
      rw [hS, hA]
    · rintro ⟨ha, hb⟩
      rw [hE] at ha
      rw [hC] at hb
      rcases hB0 with h | h
      · exact absurd h ha
      · omega
    · intro e he
      rw [hE] at he
      simp [exeErrSent, hres, he]
    · intro he
      rw [hE] at he
      simp [exeErrSent, hres, he]
  · have he0 : (attempt 0).err ≠ none := fun h => hB0 (Or.inl h)
    have hb0 : (attempt 0).bytesRead = 0 := by
      by_contra hh
      exact hB0 (Or.inr (by omega))
    have hstep0 : retryExec attempt = retryGo attempt 2 1 0 1 (attempt 0).err := by
      rw [e3, if_neg hB0, hb0]
    by_cases hB1 : (attempt 1).err = none ∨ (attempt 1).bytesRead ≠ 0
    · have hres : retryExec attempt = ⟨2, 1, (attempt 1).bytesRead, (attempt 1).err⟩ := by
        rw [hstep0, e2, if_pos (by simpa using hB1), Nat.zero_add]
      have hA : (retryExec attempt).attemptsMade = 2 := by rw [hres]
      have hS : (retryExec attempt).sleeps = 1 := by rw [hres]
      have hC : (retryExec attempt).inputCounter = (attempt 1).bytesRead := by rw [hres]
      have hE : (retryExec attempt).err = (attempt 1).err := by rw [hres]
      have hcum2 : cumBytes attempt 2 = (attempt 1).bytesRead := by
        rw [h2, h1, hb0]
        omega
      refine ⟨⟨by omega, by omega⟩, ?_, ?_, ?_, ?_, ?_, ?_, ?_, ?_, ?_⟩
      · intro j hj
        rw [hA] at hj
        have hj0 : j = 0 := by omega
        subst hj0
        exact ⟨he0, by rw [h1, hb0]⟩
      · intro _
        rw [hA, hcum2]
        exact hB1
      · intro j hj hc
        rw [hA] at hj ⊢
        have : j = 0 ∨ j = 1 := by omega
        rcases this with hj0 | hj1
        · subst hj0
          rw [h1, hb0] at hc
          omega
        · omega
      · rw [hE, hA]
      · rw [hC, hA, hcum2]
      · intro _
        rw [hS, hA]
      · rintro ⟨ha, hb⟩
        rw [hE] at ha
        rw [hC] at hb
        rcases hB1 with h | h
        · exact absurd h ha
        · omega
      · intro e he
        rw [hE] at he
        simp [exeErrSent, hres, he]
      · intro he
        rw [hE] at he
        simp [exeErrSent, hres, he]
    · have he1 : (attempt 1).err ≠ none := fun h => hB1 (Or.inl h)
      have hb1 : (attempt 1).bytesRead = 0 := by
        by_contra hh
        exact hB1 (Or.inr hh)
      have hstep1 : retryExec attempt = retryGo attempt 1 2 0 2 (attempt 1).err := by
        rw [hstep0, e2, if_neg (by simpa using hB1), hb1]
      have hcum2 : cumBytes attempt 2 = 0 := by
        rw [h2, h1, hb0, hb1]
      by_cases hB2 : (attempt 2).err = none ∨ (attempt 2).bytesRead ≠ 0
      · have hres : retryExec attempt = ⟨3, 2, (attempt 2).bytesRead, (attempt 2).err⟩ := by
          rw [hstep1, e1, if_pos (by simpa using hB2), Nat.zero_add]
        have hA : (retryExec attempt).attemptsMade = 3 := by rw [hres]
        have hS : (retryExec attempt).sleeps = 2 := by rw [hres]
        have hC : (retryExec attempt).inputCounter = (attempt 2).bytesRead := by rw [hres]
        have hE : (retryExec attempt).err = (attempt 2).err := by rw [hres]
        have hcum3 : cumBytes attempt 3 = (attempt 2).bytesRead := by
          rw [h3, hcum2]
          omega
        refine ⟨⟨by omega, by omega⟩, ?_, ?_, ?_, ?_, ?_, ?_, ?_, ?_, ?_⟩
        · intro j hj
          rw [hA] at hj
          have : j = 0 ∨ j = 1 := by omega
          rcases this with hj0 | hj1
          · subst hj0
            exact ⟨he0, by rw [h1, hb0]⟩
          · subst hj1
            exact ⟨he1, hcum2⟩
        · intro hcon
          rw [hA] at hcon
          omega
        · intro j hj hc
          rw [hA] at hj ⊢
          have : j = 0 ∨ j = 1 ∨ j = 2 := by omega
          rcases this with hj0 | hj1 | hj2
          · subst hj0
            rw [h1, hb0] at hc
            omega
          · subst hj1
            rw [hcum2] at hc
            omega
          · omega
        · rw [hE, hA]
        · rw [hC, hA, hcum3]
        · intro _
          rw [hS, hA]
        · rintro ⟨ha, hb⟩
          rw [hE] at ha
          rw [hC] at hb
          rcases hB2 with h | h
          · exact absurd h ha
          · omega
        · intro e he
          rw [hE] at he
          simp [exeErrSent, hres, he]
        · intro he
          rw [hE] at he
          simp [exeErrSent, hres, he]
      · have he2 : (attempt 2).err ≠ none := fun h => hB2 (Or.inl h)
        have hb2 : (attempt 2).bytesRead = 0 := by
          by_contra hh
          exact hB2 (Or.inr hh)
        have hres : retryExec attempt = ⟨3, 3, 0, (attempt 2).err⟩ := by
          rw [hstep1, e1, if_neg (by simpa using hB2), hb2, e0]
        have hA : (retryExec attempt).attemptsMade = 3 := by rw [hres]
        have hS : (retryExec attempt).sleeps = 3 := by rw [hres]
        have hC : (retryExec attempt).inputCounter = 0 := by rw [hres]
        have hE : (retryExec attempt).err = (attempt 2).err := by rw [hres]
        have hcum3 : cumBytes attempt 3 = 0 := by
          rw [h3, hcum2, hb2]
        refine ⟨⟨by omega, by omega⟩, ?_, ?_, ?_, ?_, ?_, ?_, ?_, ?_, ?_⟩
        · intro j hj
          rw [hA] at hj
          have : j = 0 ∨ j = 1 := by omega
          rcases this with hj0 | hj1
          · subst hj0
            exact ⟨he0, by rw [h1, hb0]⟩
          · subst hj1
            exact ⟨he1, hcum2⟩
        · intro hcon
          rw [hA] at hcon
          omega
        · intro j hj hc
          rw [hA] at hj ⊢
          have : j = 0 ∨ j = 1 ∨ j = 2 := by omega
          rcases this with hj0 | hj1 | hj2
          · subst hj0
            rw [h1, hb0] at hc
            omega
          · subst hj1
            rw [hcum2] at hc
            omega
          · subst hj2
            rw [hcum3] at hc
        · rw [hE, hA]
        · rw [hC, hA, hcum3]
        · rintro (h | h)
          · rw [hE] at h
            exact absurd h he2
          · rw [hC] at h
            omega
        · intro _
          rw [hS, hA]
        · intro e he
          rw [hE] at he
          simp [exeErrSent, hres, he]
        · intro he
          rw [hE] at he
          simp [exeErrSent, hres, he]

/-- C4 witness at a concrete attempt schedule: two failing zero-byte
attempts, then success on the third. -/
theorem claim_C4_witness :
    (1 ≤ (retryExec (fun x => if x < 2 then ⟨some "exit 1", 0⟩ else ⟨none, 0⟩)).attemptsMade ∧
      (retryExec (fun x => if x < 2 then ⟨some "exit 1", 0⟩ else ⟨none, 0⟩)).attemptsMade ≤ 3) :=
  (claim_C4 (fun x => if x < 2 then ⟨some "exit 1", 0⟩ else ⟨none, 0⟩)
    ⟨"stage2", 2, 0, none⟩).1

/-- C8 counterexample: a pipe-mode script is also run as an external
subprocess, but the executor appends none of the flags to it — the
prepared argument list is the user's argument list unchanged, with no
`-gleam.executor` flag — so the appended-flags contract does not hold
for every external-process stage. -/
theorem claim_C8_cex :
    (prepareScript "addr:1" "/work" ⟨7, true⟩
        ⟨"stage2", 1, 2, some ⟨true, "mapper", ["-a"]⟩⟩ ⟨true, "mapper", ["-a"]⟩).args
      = ["-a"] ∧
    "-gleam.executor" ∉
      (prepareScript "addr:1" "/work" ⟨7, true⟩
        ⟨"stage2", 1, 2, some ⟨true, "mapper", ["-a"]⟩⟩ ⟨true, "mapper", ["-a"]⟩).args := by
  constructor
  · rfl
  · decide

/-- C8 amended: for every non-pipe external-process stage the executor
appends `-gleam.executor <callback-address>`, `-flow.hashcode`,
`-flow.stepId`, `-flow.taskId`, and `-gleam.profiling` exactly when
the instruction set's profiling flag is set, after the user-supplied
arguments and before starting the subprocess; a pipe-mode stage's
arguments are passed through unchanged. -/
theorem claim_C8 (grpc dir : String) (is : InstructionSet) (i : Instruction) (s : Script) :
    (s.isPipe = false →
      (prepareScript grpc dir is i s).args =
        s.args ++
          ["-gleam.executor", grpc,
           "-flow.hashcode", toString is.flowHashCode,
           "-flow.stepId", toString i.stepId,
           "-flow.taskId", toString i.taskId] ++
          (if is.isProfiling then ["-gleam.profiling"] else [])) ∧
    (s.isPipe = true → prepareScript grpc dir is i s = s) := by
  constructor
  · intro h
    simp [prepareScript, h]
  · intro h
    simp [prepareScript, h]

/-- C8 witness: the non-pipe branch of the amended claim at a concrete
stage, profiling enabled. -/
theorem claim_C8_witness :
    (prepareScript "addr:1" "/work" ⟨7, true⟩
        ⟨"stage2", 1, 2, some ⟨false, "mapper", ["-a"]⟩⟩ ⟨false, "mapper", ["-a"]⟩).args =
      ["-a", "-gleam.executor", "addr:1", "-flow.hashcode", "7",
       "-flow.stepId", "1", "-flow.taskId", "2", "-gleam.profiling"] := by
  rw [(claim_C8 "addr:1" "/work" ⟨7, true⟩
    ⟨"stage2", 1, 2, some ⟨false, "mapper", ["-a"]⟩⟩ ⟨false, "mapper", ["-a"]⟩).1 rfl]
  rfl

/-! ### Claims C7, C10, C9, C5: builder checks, schema checks, run-file
errors, and the empty-input boundary -/

/-- C7 (holding part): `Build` returns a sorter exactly when the
statement context is set, the key size is positive and equals the
length of the descending-flags list, the value size and buffer size
are positive, and the working directory exists; and it never returns
both an error and a sorter. -/
theorem claim_C7 :
    (∀ b : Builder, (build b).2.isSome ↔
      (b.scSet = true ∧ 0 < b.keySize ∧ b.keySize = (b.byDesc.length : Int) ∧
        0 < b.valSize ∧ 0 < b.bufSize ∧ b.tmpDirExists = true)) ∧
    (∀ b : Builder, (build b).1 = none ↔ (build b).2.isSome) ∧
    (∀ b : Builder, b.byDesc = [] → 0 < b.keySize → (build b).2 = none) := by
  refine ⟨?_, ?_, ?_⟩
  · intro b
    unfold build
    split_ifs with hsc hk hkp hv hbuf ht <;> simp_all
    exact List.length_pos.mpr hkp
  · intro b
    unfold build
    split_ifs <;> simp
  · intro b hbd hk
    unfold build
    split_ifs with hsc hkz <;> try rfl
    · rw [hbd] at hkz
      simp at hkz
      omega

/-- C7 counterexample: the descending flags are not optional — a
builder that never calls `SetDesc` (empty flags) with a positive key
count is rejected with "mismatch in key size and byDesc slice", where
the claim's default-to-ascending behaviour would have succeeded. -/
theorem claim_C7_cex :
    build { scSet := true, keySize := 1, valSize := 1, bufSize := 1,
            byDesc := [], tmpDirExists := true } =
      (some "mismatch in key size and byDesc slice", none) := by
  rfl

/-- A fully valid builder configuration, for the C7 witness. -/
def builderOK : Builder :=
  { scSet := true, keySize := 1, valSize := 1, bufSize := 1, byDesc := [false], tmpDirExists := true }

/-- An otherwise valid builder whose descending flags were never set. -/
def builderNoDesc : Builder :=
  { scSet := true, keySize := 1, valSize := 1, bufSize := 1, byDesc := [], tmpDirExists := true }

/-- C7 witness: a fully valid builder yields a sorter; an otherwise
valid builder with unset (empty) descending flags yields none. -/
theorem claim_C7_witness :
    (build builderOK).2.isSome = true ∧ (build builderNoDesc).2 = none :=
  ⟨(claim_C7.1 builderOK).mpr ⟨rfl, by decide, by decide, by decide, by decide, rfl⟩,
   claim_C7.2.2 builderNoDesc rfl (by decide)⟩

/-- C10: in the open input phase, an `Input` whose key or value slice
length differs from the configured schema returns the corresponding
error and returns the sorter completely unchanged — no row buffered,
no spill, no run file — because the schema checks precede the
buffer-overflow check. -/
theorem claim_C10 (fs : FileSorter) (key val : List Int) (handle : Int)
    (hc : fs.closed = false) (hf : fs.fetched = false) :
    (key.length ≠ fs.keySize →
      input fs key val handle = (some "mismatch in key size and key slice", fs)) ∧
    (key.length = fs.keySize → val.length ≠ fs.valSize →
      input fs key val handle = (some "mismatch in value size and val slice", fs)) := by
  constructor
  · intro hk
    unfold input
    rw [if_neg (by simp [hc]), if_neg (by simp [hf]), if_pos hk]
  · intro hk hv
    unfold input
    rw [if_neg (by simp [hc]), if_neg (by simp [hf]), if_neg (by simp [hk]), if_pos hv]

/-- C10 witness: a concrete open sorter rejecting a short key and a
short value slice, unchanged both times. -/
theorem claim_C10_witness :
    input (newFileSorter 2 1 4 [false, false]) [7] [8] 1 =
      (some "mismatch in key size and key slice", newFileSorter 2 1 4 [false, false]) ∧
    input (newFileSorter 2 1 4 [false, false]) [7, 9] [] 1 =
      (some "mismatch in value size and val slice", newFileSorter 2 1 4 [false, false]) :=
  ⟨(claim_C10 (newFileSorter 2 1 4 [false, false]) [7] [8] 1 rfl rfl).1 (by decide),
   (claim_C10 (newFileSorter 2 1 4 [false, false]) [7, 9] [] 1 rfl rfl).2 rfl (by decide)⟩

/-! ### Frame lemmas for the sorter operations -/

theorem fetchNextRow_state (fs : FileSorter) (i : Nat) :
    (fetchNextRow fs i).2.2 = { fs with
      fds := fs.fds.set i (fetchCore fs.keySize fs.valSize (fs.fds.getD i [])).2.2 } := by
  unfold fetchNextRow
  rcases h : fetchCore fs.keySize fs.valSize (fs.fds.getD i []) with ⟨e, r, rest⟩
  rfl

theorem fetchNextRow_frame (fs : FileSorter) (i : Nat) :
    ((fetchNextRow fs i).2.2.closed = fs.closed) ∧
    ((fetchNextRow fs i).2.2.fetched = fs.fetched) ∧
    ((fetchNextRow fs i).2.2.files = fs.files) ∧
    ((fetchNextRow fs i).2.2.buf = fs.buf) ∧
    ((fetchNextRow fs i).2.2.tmpDirExists = fs.tmpDirExists) ∧
    ((fetchNextRow fs i).2.2.heap = fs.heap) ∧
    ((fetchNextRow fs i).2.2.keySize = fs.keySize) ∧
    ((fetchNextRow fs i).2.2.valSize = fs.valSize) ∧
    ((fetchNextRow fs i).2.2.byDesc = fs.byDesc) ∧
    ((fetchNextRow fs i).2.2.cursor = fs.cursor) ∧
    ((fetchNextRow fs i).2.2.fileCount = fs.fileCount) := by
  rw [fetchNextRow_state]
  exact ⟨rfl, rfl, rfl, rfl, rfl, rfl, rfl, rfl, rfl, rfl, rfl⟩

theorem primeLoop_frame (n : Nat) : ∀ (fs : FileSorter) (id : Nat),
    ((primeLoop fs id n).2.closed = fs.closed) ∧
    ((primeLoop fs id n).2.fetched = fs.fetched) ∧
    ((primeLoop fs id n).2.files = fs.files) ∧
    ((primeLoop fs id n).2.buf = fs.buf) ∧
    ((primeLoop fs id n).2.tmpDirExists = fs.tmpDirExists) := by
  induction n with
  | zero =>
    intro fs id
    exact ⟨rfl, rfl, rfl, rfl, rfl⟩
  | succ n ih =>
    intro fs id
    show ((primeLoop fs id (n + 1)).2.closed = fs.closed) ∧ _
    unfold primeLoop
    rcases hf : fetchNextRow fs id with ⟨e, r, fs2⟩
    have hfr := fetchNextRow_frame fs id
    rw [hf] at hfr
    rcases e with _ | msg
    · rcases r with _ | row
      · exact ⟨hfr.1, hfr.2.1, hfr.2.2.1, hfr.2.2.2.1, hfr.2.2.2.2.1⟩
      · have hstep := ih { fs2 with heap := fs2.heap ++ [⟨id, row⟩] } (id + 1)
        refine ⟨?_, ?_, ?_, ?_, ?_⟩
        · rw [hstep.1]
          exact hfr.1
        · rw [hstep.2.1]
          exact hfr.2.1
        · rw [hstep.2.2.1]
          exact hfr.2.2.1
        · rw [hstep.2.2.2.1]
          exact hfr.2.2.2.1
        · rw [hstep.2.2.2.2]
          exact hfr.2.2.2.2.1
    · exact ⟨hfr.1, hfr.2.1, hfr.2.2.1, hfr.2.2.2.1, hfr.2.2.2.2.1⟩

theorem flushToFile_frame (fs : FileSorter) :
    ((flushToFile fs).2.closed = fs.closed) ∧
    ((flushToFile fs).2.fetched = fs.fetched) ∧
    ((flushToFile fs).2.tmpDirExists = fs.tmpDirExists) ∧
    ((flushToFile fs).2.heap = fs.heap) ∧
    ((flushToFile fs).2.fds = fs.fds) ∧
    ((flushToFile fs).2.cursor = fs.cursor) := by
  unfold flushToFile
  split_ifs <;> exact ⟨rfl, rfl, rfl, rfl, rfl, rfl⟩

theorem flushToFile_ok (fs : FileSorter) (h : fs.tmpDirExists = true) :
    flushToFile fs = (none, { fs with
      buf := [],
      files := fs.files ++ [bytesOfRows (sortRows fs.byDesc fs.buf)],
      fileCount := fs.fileCount + 1 }) := by
  unfold flushToFile
  rw [if_pos h]

theorem openAllFiles_frame (fs : FileSorter) :
    ((openAllFiles fs).2.closed = fs.closed) ∧
    ((openAllFiles fs).2.fetched = fs.fetched) ∧
    ((openAllFiles fs).2.files = fs.files) ∧
    ((openAllFiles fs).2.buf = fs.buf) ∧
    ((openAllFiles fs).2.tmpDirExists = fs.tmpDirExists) := by
  unfold openAllFiles
  split_ifs <;> exact ⟨rfl, rfl, rfl, rfl, rfl⟩

theorem externalSortStep_frame (fs : FileSorter) :
    ((externalSortStep fs).2.2.closed = fs.closed) ∧
    ((externalSortStep fs).2.2.fetched = fs.fetched) ∧
    ((externalSortStep fs).2.2.files = fs.files) ∧
    ((externalSortStep fs).2.2.buf = fs.buf) ∧
    ((externalSortStep fs).2.2.tmpDirExists = fs.tmpDirExists) := by
  unfold externalSortStep
  rcases hp : popMin fs.byDesc fs.heap with _ | ⟨im, rest⟩
  · exact ⟨rfl, rfl, rfl, rfl, rfl⟩
  · dsimp only
    rcases hf : fetchNextRow { fs with heap := rest } im.index with ⟨e, r, fs2⟩
    have hfr := fetchNextRow_frame { fs with heap := rest } im.index
    rw [hf] at hfr
    rcases e with _ | msg
    · rcases r with _ | row
      · exact ⟨hfr.1, hfr.2.1, hfr.2.2.1, hfr.2.2.2.1, hfr.2.2.2.2.1⟩
      · exact ⟨hfr.1, hfr.2.1, hfr.2.2.1, hfr.2.2.2.1, hfr.2.2.2.2.1⟩
    · exact ⟨hfr.1, hfr.2.1, hfr.2.2.1, hfr.2.2.2.1, hfr.2.2.2.2.1⟩

theorem internalSortServe_spec (fs : FileSorter) :
    ((internalSortServe fs).1 = none) ∧
    ((internalSortServe fs).2.2.closed = fs.closed) ∧
    ((internalSortServe fs).2.2.fetched = fs.fetched) ∧
    ((internalSortServe fs).2.2.files = fs.files) := by
  unfold internalSortServe
  split_ifs <;> exact ⟨rfl, rfl, rfl, rfl⟩

theorem internalSort_spec (fs : FileSorter) :
    ((internalSort fs).1 = none) ∧
    ((internalSort fs).2.2.closed = fs.closed) ∧
    ((internalSort fs).2.2.fetched = true) ∧
    ((internalSort fs).2.2.files = fs.files) := by
  unfold internalSort
  by_cases h : fs.fetched
  · rw [if_pos h]
    have hs := internalSortServe_spec fs
    exact ⟨hs.1, hs.2.1, by rw [hs.2.2.1]; exact h, hs.2.2.2⟩
  · rw [if_neg h]
    have hs := internalSortServe_spec { fs with buf := sortRows fs.byDesc fs.buf, fetched := true }
    exact ⟨hs.1, hs.2.1, by rw [hs.2.2.1], hs.2.2.2⟩

theorem externalSortPrep_spec (fs : FileSorter) :
    ∀ e fs2, externalSortPrep fs = (e, fs2) →
    (fs2.closed = fs.closed) ∧ (e = none → fs2.fetched = true) ∧
    (fs2.tmpDirExists = fs.tmpDirExists) := by
  intro e fs2 h
  unfold externalSortPrep at h
  rcases hfl : (if fs.buf.length > 0 then flushToFile fs else (none, fs)) with ⟨e1, fs1⟩
  have hfl_frame : fs1.closed = fs.closed ∧ fs1.fetched = fs.fetched ∧
      fs1.tmpDirExists = fs.tmpDirExists := by
    have hff := flushToFile_frame fs
    split_ifs at hfl
    · rw [hfl] at hff
      exact ⟨hff.1, hff.2.1, hff.2.2.1⟩
    · rw [Prod.mk.injEq] at hfl
      rw [← hfl.2]
      exact ⟨rfl, rfl, rfl⟩
  rw [hfl] at h
  rcases e1 with _ | msg
  · dsimp only at h
    rcases ho : openAllFiles fs1 with ⟨e2, fs3⟩
    have hof := openAllFiles_frame fs1
    rw [ho] at hof
    rw [ho] at h
    rcases e2 with _ | msg2
    · dsimp only at h
      rcases hpl : primeLoop fs3 0 fs3.fds.length with ⟨e3, fs4⟩
      have hpf := primeLoop_frame fs3.fds.length fs3 0
      rw [hpl] at hpf
      rw [hpl] at h
      rcases e3 with _ | msg3
      · simp only [Prod.mk.injEq] at h
        rw [← h.2, ← h.1]
        refine ⟨?_, fun _ => rfl, ?_⟩
        · show fs4.closed = fs.closed
          rw [hpf.1, hof.1, hfl_frame.1]
        · show fs4.tmpDirExists = fs.tmpDirExists
          rw [hpf.2.2.2.2, hof.2.2.2.2, hfl_frame.2.2]
      · simp only [Prod.mk.injEq] at h
        rw [← h.2, ← h.1]
        refine ⟨by rw [hpf.1, hof.1, hfl_frame.1], by intro hc; exact absurd hc (by simp), ?_⟩
        rw [hpf.2.2.2.2, hof.2.2.2.2, hfl_frame.2.2]
    · simp only [Prod.mk.injEq] at h
      rw [← h.2, ← h.1]
      refine ⟨by rw [hof.1, hfl_frame.1], by intro hc; exact absurd hc (by simp), ?_⟩
      rw [hof.2.2.2.2, hfl_frame.2.2]
  · simp only [Prod.mk.injEq] at h
    rw [← h.2, ← h.1]
    exact ⟨hfl_frame.1, by intro hc; exact absurd hc (by simp), hfl_frame.2.2⟩

/-! ### Claims C3, C5, C9 -/

/-- C3: the phases form a one-way state machine.  Any completed
`Output` call leaves the sorter in the fetched state (and `Output`
never un-fetches or un-closes it); a fetched open sorter rejects every
`Input` with "call input after output"; and once `Close` succeeds,
`Input`, `Output`, and a second `Close` all fail with "FileSorter has
been closed", leaving the state untouched — the second `Close` is an
error, not a no-op. -/
theorem claim_C3 (fs : FileSorter) :
    (∀ e r fs2, output fs = (e, r, fs2) →
      fs2.closed = fs.closed ∧ (e = none → fs2.fetched = true) ∧
      (fs.fetched = true → fs2.fetched = true)) ∧
    (fs.fetched = true → fs.closed = false →
      ∀ key val handle, input fs key val handle = (some "call input after output", fs)) ∧
    (∀ fs2, close fs = (none, fs2) →
      (∀ key val handle, input fs2 key val handle = (some "FileSorter has been closed", fs2)) ∧
      output fs2 = (some "FileSorter has been closed", none, fs2) ∧
      close fs2 = (some "FileSorter has been closed", fs2)) := by
  refine ⟨?_, ?_, ?_⟩
  · intro e r fs2 h
    unfold output at h
    by_cases hc : fs.closed = true
    · rw [if_pos hc] at h
      simp only [Prod.mk.injEq] at h
      rw [← h.2.2]
      exact ⟨rfl, fun hne => absurd (h.1.trans hne) (by simp), fun hf => hf⟩
    · rw [if_neg hc] at h
      by_cases hfl : fs.files.length = 0
      · rw [if_pos hfl] at h
        have hs := internalSort_spec fs
        rw [h] at hs
        exact ⟨hs.2.1, fun _ => hs.2.2.1, fun _ => hs.2.2.1⟩
      · rw [if_neg hfl] at h
        unfold externalSort at h
        by_cases hf : fs.fetched = true
        · rw [if_pos hf] at h
          dsimp only at h
          have hframe := externalSortStep_frame fs
          rw [h] at hframe
          exact ⟨hframe.1, fun _ => hframe.2.1.trans hf, fun _ => hframe.2.1.trans hf⟩
        · rw [if_neg hf] at h
          rcases hp : externalSortPrep fs with ⟨e1, fsp⟩
          have hps := externalSortPrep_spec fs e1 fsp hp
          rw [hp] at h
          rcases e1 with _ | msg
          · dsimp only at h
            have hframe := externalSortStep_frame fsp
            rw [h] at hframe
            exact ⟨hframe.1.trans hps.1,
              fun _ => hframe.2.1.trans (hps.2.1 rfl),
              fun _ => hframe.2.1.trans (hps.2.1 rfl)⟩
          · dsimp only at h
            simp only [Prod.mk.injEq] at h
            rw [← h.2.2]
            exact ⟨hps.1, fun hne => absurd (h.1.trans hne) (by simp),
              fun hx => absurd hx hf⟩
  · intro hf hc key val handle
    unfold input
    rw [if_neg (by rw [hc]; simp), if_pos hf]
  · intro fs2 h
    unfold close at h
    by_cases hc : fs.closed = true
    · rw [if_pos hc] at h
      exact absurd (congrArg Prod.fst h) (by simp)
    · rw [if_neg hc] at h
      unfold closeAllFiles at h
      dsimp only at h
      simp only [Prod.mk.injEq] at h
      have hclosed : fs2.closed = true := by
        rw [← h.2]
      refine ⟨?_, ?_, ?_⟩
      · intro key val handle
        unfold input
        rw [if_pos hclosed]
      · unfold output
        rw [if_pos hclosed]
      · unfold close
        rw [if_pos hclosed]

/-- C3 witness: the state machine at a concrete sorter — a fresh
sorter after one Output rejects Input, and after Close rejects
everything. -/
theorem claim_C3_witness :
    input (output (newFileSorter 1 1 2 [false])).2.2 [3] [4] 0 =
      (some "call input after output", (output (newFileSorter 1 1 2 [false])).2.2) ∧
    close (close (newFileSorter 1 1 2 [false])).2 =
      (some "FileSorter has been closed", (close (newFileSorter 1 1 2 [false])).2) := by
  constructor
  · exact (claim_C3 (output (newFileSorter 1 1 2 [false])).2.2).2.1 (by rfl) (by rfl) [3] [4] 0
  · exact ((claim_C3 (newFileSorter 1 1 2 [false])).2.2
      (close (newFileSorter 1 1 2 [false])).2 (by rfl)).2.2

/-- C5 counterexample: with zero `Input` calls, `Output` indeed returns
no row and no error, and `Close` succeeds — but "without touching the
filesystem" is false: `Close` calls `os.RemoveAll` on the working
directory, so a directory is removed (it exists before `Close`, and
does not after). -/
theorem claim_C5_cex :
    (output (newFileSorter 1 1 16 [false])).1 = none ∧
    (output (newFileSorter 1 1 16 [false])).2.1 = none ∧
    (close (output (newFileSorter 1 1 16 [false])).2.2).1 = none ∧
    (newFileSorter 1 1 16 [false]).tmpDirExists = true ∧
    (close (output (newFileSorter 1 1 16 [false])).2.2).2.tmpDirExists = false :=
  ⟨rfl, rfl, rfl, rfl, rfl⟩

/-- C5 amended: zero `Input` calls followed by one `Output` call
returns no row and no error; `Close` then succeeds and no file was
ever created (no run files, file counter zero) — but `Close` removes
the working directory (`os.RemoveAll`), so the filesystem does not
stay untouched. -/
theorem claim_C5 (k v b : Nat) (bd : List Bool) :
    output (newFileSorter k v b bd) =
      (none, none, { newFileSorter k v b bd with fetched := true }) ∧
    close { newFileSorter k v b bd with fetched := true } =
      (none, { newFileSorter k v b bd with
               fetched := true
               closed := true
               tmpDirExists := false }) ∧
    (close { newFileSorter k v b bd with fetched := true }).2.files = [] ∧
    (close { newFileSorter k v b bd with fetched := true }).2.fileCount = 0 :=
  ⟨rfl, rfl, rfl, rfl⟩

/-- C9: reading a run-file record fails immediately with "incorrect
header" when fewer than 8 header bytes remain, and fails immediately
when fewer bytes than the declared length remain for the body; and
during merge priming, a run file that yields no row makes `Output`
return the fatal "file is empty" error instead of skipping the run. -/
theorem claim_C9 :
    (∀ (k v : Nat) (fd : List UInt8), fd ≠ [] → fd.length < 8 →
      (fetchCore k v fd).1 = some "incorrect header") ∧
    (∀ (k v : Nat) (head rest : List UInt8), head.length = 8 →
      rest.length < beToNat head → ((fetchCore k v (head ++ rest)).1.isSome = true ∧
        (fetchCore k v (head ++ rest)).2.1 = none)) ∧
    (∀ fs : FileSorter, fs.closed = false → fs.fetched = false →
      fs.tmpDirExists = true → fs.buf = [] → fs.fds = [] →
      fs.files.head? = some [] →
      ((output fs).1 = some "file is empty" ∧ (output fs).2.1 = none)) := by
  refine ⟨?_, ?_, ?_⟩
  · intro k v fd hne hlen
    unfold fetchCore
    rw [if_neg (by simp [hne]), if_pos hlen]
  · intro k v head rest h8 hshort
    have hne : (head ++ rest).isEmpty = false := by
      rcases head with _ | ⟨b, hs⟩
      · simp at h8
      · simp
    have hlen : ¬ ((head ++ rest).length < 8) := by
      rw [List.length_append, h8]
      omega
    have htake : (head ++ rest).take 8 = head := by
      rw [← h8]
      exact List.take_left _ _
    have hdrop : (head ++ rest).drop 8 = rest := by
      rw [← h8]
      exact List.drop_left _ _
    unfold fetchCore
    rw [hne, if_neg hlen, htake, hdrop, if_pos hshort]
    by_cases hre : rest.isEmpty
    · rw [if_pos hre]
      exact ⟨rfl, rfl⟩
    · rw [if_neg hre]
      exact ⟨rfl, rfl⟩
  · intro fs hc hfet ht hbuf hfds hhead
    rcases hfi : fs.files with _ | ⟨f0, restf⟩
    · rw [hfi] at hhead
      simp at hhead
    · have hf0 : f0 = [] := by
        rw [hfi] at hhead
        simpa using hhead
      subst hf0
      have hflen : ¬ (fs.files.length = 0) := by
        rw [hfi]
        simp
      unfold output
      rw [if_neg (by rw [hc]; simp), if_neg hflen]
      unfold externalSort
      rw [if_neg (by rw [hfet]; simp)]
      unfold externalSortPrep
      rw [if_neg (by rw [hbuf]; simp)]
      dsimp only
      unfold openAllFiles
      rw [if_pos ht]
      dsimp only
      rw [hfds, hfi]
      exact ⟨rfl, rfl⟩

/-- C9 witness: a 3-byte run file yields "incorrect header"; a record
announcing 5 body bytes backed by 2 yields an immediate error; a
sorter whose only run file is empty makes Output fail with "file is
empty". -/
theorem claim_C9_witness :
    (fetchCore 1 1 [0, 0, 1]).1 = some "incorrect header" ∧
    ((fetchCore 1 1 ([0, 0, 0, 0, 0, 0, 0, 5] ++ [9, 9])).1.isSome = true ∧
      (fetchCore 1 1 ([0, 0, 0, 0, 0, 0, 0, 5] ++ [9, 9])).2.1 = none) ∧
    ((output { newFileSorter 1 1 2 [false] with files := [[]] }).1 = some "file is empty" ∧
      (output { newFileSorter 1 1 2 [false] with files := [[]] }).2.1 = none) :=
  ⟨claim_C9.1 1 1 [0, 0, 1] (by decide) (by decide),
   claim_C9.2.1 1 1 [0, 0, 0, 0, 0, 0, 0, 5] [9, 9] (by decide) (by decide),
   claim_C9.2.2 { newFileSorter 1 1 2 [false] with files := [[]] } rfl rfl rfl rfl rfl rfl⟩

/-! ### The input-phase invariant -/

/-- The state of a sorter during the input phase, relative to the rows
inserted so far: the run files hold the sorted overflowed chunks (of
exactly `bufSize` rows each), the buffer holds the remaining tail, and
chunks plus buffer are a permutation of the inserted rows. -/
def InputInv (k v b : Nat) (bd : List Bool) (inserted : List ComparableRow)
    (fs : FileSorter) : Prop :=
  fs.keySize = k ∧ fs.valSize = v ∧ fs.bufSize = b ∧ fs.byDesc = bd ∧
  fs.closed = false ∧ fs.fetched = false ∧ fs.tmpDirExists = true ∧
  fs.cursor = 0 ∧ fs.heap = [] ∧ fs.fds = [] ∧
  fs.fileCount = fs.files.length ∧
  fs.buf.length ≤ b ∧
  (fs.buf = [] → inserted = []) ∧
  (∀ r ∈ inserted, RowWF k v r) ∧
  ∃ chunks : List (List ComparableRow),
    fs.files = chunks.map (fun c => bytesOfRows (sortRows bd c)) ∧
    (∀ c ∈ chunks, c.length = b) ∧
    List.Perm (chunks.flatten ++ fs.buf) inserted

theorem inputInv_init (k v b : Nat) (bd : List Bool) :
    InputInv k v b bd [] (newFileSorter k v b bd) := by
  refine ⟨rfl, rfl, rfl, rfl, rfl, rfl, rfl, rfl, rfl, rfl, rfl, by simp [newFileSorter],
    fun _ => rfl, by simp, [], by simp [newFileSorter], by simp, by simp [newFileSorter]⟩

theorem inputInv_step (k v b : Nat) (bd : List Bool) (hb : 1 ≤ b)
    (inserted : List ComparableRow) (fs : FileSorter) (r : ComparableRow)
    (hinv : InputInv k v b bd inserted fs) (hr : RowWF k v r) :
    input fs r.key r.val r.handle =
      (none, (input fs r.key r.val r.handle).2) ∧
    InputInv k v b bd (inserted ++ [r]) (input fs r.key r.val r.handle).2 := by
  obtain ⟨hk, hv, hbs, hbd, hc, hf, ht, hcur, hheap, hfds, hfc, hblen, hbe, hwf,
    chunks, hfiles, hclen, hperm⟩ := hinv
  obtain ⟨hrk, hrv, hrb⟩ := hr
  have hkey : ¬ (r.key.length ≠ fs.keySize) := by
    rw [hrk, hk]
    simp
  have hval : ¬ (r.val.length ≠ fs.valSize) := by
    rw [hrv, hv]
    simp
  unfold input
  rw [if_neg (by rw [hc]; simp), if_neg (by rw [hf]; simp), if_neg hkey, if_neg hval]
  by_cases hover : fs.buf.length ≥ fs.bufSize
  · rw [if_pos hover]
    rw [flushToFile_ok fs ht]
    dsimp only
    have hbufb : fs.buf.length = b := by
      rw [hbs] at hover
      omega
    refine ⟨rfl, hk, hv, hbs, hbd, hc, hf, ht, hcur, hheap, hfds, ?_,
      by simpa using hb, ?_, ?_, chunks ++ [fs.buf], ?_, ?_, ?_⟩
    · simp [hfc]
    · intro habs
      simp at habs
    · intro x hx
      rcases List.mem_append.mp hx with hx | hx
      · exact hwf x hx
      · rw [List.mem_singleton.mp hx]
        exact ⟨hrk, hrv, hrb⟩
    · simp only [List.map_append, List.map_cons, List.map_nil, hfiles, hbd]
    · intro c hc2
      rcases List.mem_append.mp hc2 with hc2 | hc2
      · exact hclen c hc2
      · rw [List.mem_singleton.mp hc2]
        exact hbufb
    · simp only [List.flatten_append, List.flatten_cons, List.flatten_nil,
        List.append_nil, List.nil_append, List.append_assoc]
      have : List.Perm ((chunks.flatten ++ fs.buf) ++ [r]) (inserted ++ [r]) :=
        hperm.append_right [r]
      simpa [List.append_assoc] using this
  · rw [if_neg hover]
    dsimp only
    refine ⟨rfl, hk, hv, hbs, hbd, hc, hf, ht, hcur, hheap, hfds, hfc, ?_, ?_, ?_,
      chunks, hfiles, hclen, ?_⟩
    · rw [hbs] at hover
      simp only [List.length_append, List.length_cons, List.length_nil]
      omega
    · intro habs
      simp at habs
    · intro x hx
      rcases List.mem_append.mp hx with hx | hx
      · exact hwf x hx
      · rw [List.mem_singleton.mp hx]
        exact ⟨hrk, hrv, hrb⟩
    · have : List.Perm ((chunks.flatten ++ fs.buf) ++ [r]) (inserted ++ [r]) :=
        hperm.append_right [r]
      simpa [List.append_assoc] using this

theorem inputAll_inv (k v b : Nat) (bd : List Bool) (hb : 1 ≤ b) :
    ∀ (rows inserted : List ComparableRow) (fs : FileSorter),
    InputInv k v b bd inserted fs → (∀ r ∈ rows, RowWF k v r) →
    inputAll fs rows = (none, (inputAll fs rows).2) ∧
    InputInv k v b bd (inserted ++ rows) (inputAll fs rows).2 := by
  intro rows
  induction rows with
  | nil =>
    intro inserted fs hinv _
    exact ⟨rfl, by simpa using hinv⟩
  | cons r rs ih =>
    intro inserted fs hinv hwf
    have hstep := inputInv_step k v b bd hb inserted fs r hinv (hwf r (by simp))
    unfold inputAll
    rw [hstep.1]
    dsimp only
    have hrec := ih (inserted ++ [r]) (input fs r.key r.val r.handle).2 hstep.2
      (fun x hx => hwf x (by simp [hx]))
    rw [hrec.1]
    refine ⟨rfl, ?_⟩
    have := hrec.2
    simpa [List.append_assoc] using this

/-! ### Claim C6: spill counting -/

theorem flatten_length_const (b : Nat) :
    ∀ (chunks : List (List ComparableRow)), (∀ c ∈ chunks, c.length = b) →
    chunks.flatten.length = b * chunks.length := by
  intro chunks
  induction chunks with
  | nil => intro _; simp
  | cons c cs ih =>
    intro h
    have hc : c.length = b := h c (by simp)
    have hcs : cs.flatten.length = b * cs.length := ih (fun x hx => h x (by simp [hx]))
    simp only [List.flatten_cons, List.length_append, List.length_cons, hc, hcs,
      Nat.mul_succ]
    omega

/-- After the first `Output` call on a sorter that has spilled (some
run file exists) and still buffers rows, the run-file count has grown
by exactly one: the trailing buffer is flushed as the final run, and
no later step of the call creates another file. -/
theorem output_files_after_spill (fs : FileSorter)
    (hc : fs.closed = false) (hf : fs.fetched = false) (ht : fs.tmpDirExists = true)
    (hne : fs.files.length ≠ 0) (hbuf : fs.buf ≠ []) :
    (output fs).2.2.files.length = fs.files.length + 1 := by
  unfold output
  rw [if_neg (by rw [hc]; simp), if_neg hne]
  unfold externalSort
  rw [if_neg (by rw [hf]; simp)]
  rcases hp : externalSortPrep fs with ⟨e1, fsp⟩
  have hfsp : fsp.files.length = fs.files.length + 1 := by
    unfold externalSortPrep at hp
    rw [if_pos (by
      rcases hbq : fs.buf with _ | ⟨x, xs⟩
      · exact absurd hbq hbuf
      · simp [hbq])] at hp
    rw [flushToFile_ok fs ht] at hp
    dsimp only at hp
    rcases ho : openAllFiles { fs with
        buf := [],
        files := fs.files ++ [bytesOfRows (sortRows fs.byDesc fs.buf)],
        fileCount := fs.fileCount + 1 } with ⟨e2, fs3⟩
    have hof := openAllFiles_frame { fs with
        buf := [],
        files := fs.files ++ [bytesOfRows (sortRows fs.byDesc fs.buf)],
        fileCount := fs.fileCount + 1 }
    rw [ho] at hof
    rw [ho] at hp
    have hfs3 : fs3.files = fs.files ++ [bytesOfRows (sortRows fs.byDesc fs.buf)] :=
      hof.2.2.1
    rcases e2 with _ | msg2
    · dsimp only at hp
      rcases hpl : primeLoop fs3 0 fs3.fds.length with ⟨e3, fs4⟩
      have hpf := primeLoop_frame fs3.fds.length fs3 0
      rw [hpl] at hpf
      rw [hpl] at hp
      have hfs4 : fs4.files = fs3.files := hpf.2.2.1
      rcases e3 with _ | msg3
      · simp only [Prod.mk.injEq] at hp
        rw [← hp.2]
        show fs4.files.length = fs.files.length + 1
        rw [hfs4, hfs3]
        simp
      · simp only [Prod.mk.injEq] at hp
        rw [← hp.2, hfs4, hfs3]
        simp
    · simp only [Prod.mk.injEq] at hp
      rw [← hp.2, hfs3]
      simp
  rcases e1 with _ | msg
  · dsimp only
    have hframe := externalSortStep_frame fsp
    rw [hframe.2.2.1, hfsp]
  · dsimp only
    exact hfsp

theorem claim_C6_div1 (m b c : Nat) (h1 : 1 ≤ m) (h2 : m ≤ b) :
    (b * c + m - 1) / b = c := by
  apply Nat.div_eq_of_lt_le
  · rw [Nat.mul_comm]
    omega
  · rw [Nat.succ_mul, Nat.mul_comm]
    omega

theorem claim_C6_div2 (m b c : Nat) (h1 : 1 ≤ m) (h2 : m ≤ b) :
    (b * c + m + b - 1) / b = c + 1 := by
  apply Nat.div_eq_of_lt_le
  · rw [Nat.succ_mul, Nat.mul_comm c b]
    omega
  · rw [Nat.succ_mul, Nat.succ_mul, Nat.mul_comm c b]
    omega

/-- C6: inserting exactly `bufSize + 1` rows forces exactly one spill;
no run file exists while the buffer has not overflowed; after `n ≥ 1`
inserts the run-file count is `(n - 1) / bufSize`; and once the output
phase begins the total run-file count is `ceil(n / bufSize)` minus the
run that stayed in memory on the no-spill path — i.e. `0` when
`n ≤ bufSize` and `(n + bufSize - 1) / bufSize` otherwise. -/
theorem claim_C6 (k v b : Nat) (bd : List Bool) (rows : List ComparableRow)
    (hb : 1 ≤ b) (hwf : ∀ r ∈ rows, RowWF k v r) :
    ∃ fs1, inputAll (newFileSorter k v b bd) rows = (none, fs1) ∧
      (rows.length = b + 1 → fs1.files.length = 1) ∧
      (rows.length ≤ b → fs1.files.length = 0) ∧
      (1 ≤ rows.length → fs1.files.length = (rows.length - 1) / b) ∧
      ((output fs1).2.2.files.length =
        if rows.length ≤ b then 0 else (rows.length + b - 1) / b) := by
  have hall := inputAll_inv k v b bd hb rows [] (newFileSorter k v b bd)
    (inputInv_init k v b bd) hwf
  refine ⟨(inputAll (newFileSorter k v b bd) rows).2, hall.1, ?_⟩
  have hinv := hall.2
  rw [List.nil_append] at hinv
  set fs1 := (inputAll (newFileSorter k v b bd) rows).2 with hfs1
  obtain ⟨hk, hv, hbs, hbd, hc, hf, ht, hcur, hheap, hfds, hfc, hblen, hbe, hwf2,
    chunks, hfiles, hclen, hperm⟩ := hinv
  have hflat : chunks.flatten.length = b * chunks.length :=
    flatten_length_const b chunks hclen
  have hn : b * chunks.length + fs1.buf.length = rows.length := by
    have := hperm.length_eq
    simp only [List.length_append] at this
    rw [hflat] at this
    exact this
  have hfl : fs1.files.length = chunks.length := by
    rw [hfiles, List.length_map]
  have hbe2 : 1 ≤ rows.length → 1 ≤ fs1.buf.length := by
    intro hr
    rcases hq : fs1.buf with _ | ⟨x, xs⟩
    · rw [hbe hq] at hr
      simp at hr
    · simp
  have hczero : rows.length ≤ b → chunks.length = 0 := by
    intro hrb
    by_contra hcne
    have hcge : 1 ≤ chunks.length := Nat.pos_of_ne_zero hcne
    have hble : b ≤ b * chunks.length := Nat.le_mul_of_pos_right b hcge
    rcases Nat.eq_zero_or_pos rows.length with hr0 | hr1
    · omega
    · have := hbe2 hr1
      omega
  refine ⟨?_, ?_, ?_, ?_⟩
  · intro hrows
    rw [hfl]
    have hm1 : 1 ≤ fs1.buf.length := hbe2 (by omega)
    rcases hcc : chunks.length with _ | c
    · rw [hcc] at hn
      omega
    · rcases c with _ | c
      · rfl
      · exfalso
        rw [hcc] at hn
        have : b * (c + 1 + 1) = b * c + b + b := by
          rw [Nat.mul_succ, Nat.mul_succ]
        omega
  · intro hrb
    rw [hfl]
    exact hczero hrb
  · intro hr1
    rw [hfl, ← hn]
    have hm1 : 1 ≤ fs1.buf.length := hbe2 hr1
    exact (claim_C6_div1 fs1.buf.length b chunks.length hm1 (by omega)).symm
  · by_cases hrb : rows.length ≤ b
    · rw [if_pos hrb]
      have hcz : chunks.length = 0 := hczero hrb
      have hfz : fs1.files.length = 0 := by
        rw [hfl, hcz]
      unfold output
      rw [if_neg (by rw [hc]; simp), if_pos hfz]
      have hs := internalSort_spec fs1
      rw [hs.2.2.2, hfz]
    · rw [if_neg hrb]
      have hr1 : 1 ≤ rows.length := by omega
      have hm1 : 1 ≤ fs1.buf.length := hbe2 hr1
      have hcge : fs1.files.length ≠ 0 := by
        rw [hfl]
        intro hcz
        rw [hcz] at hn
        omega
      have hbne : fs1.buf ≠ [] := by
        rcases hq : fs1.buf with _ | ⟨x, xs⟩
        · rw [hq] at hm1
          simp at hm1
        · simp
      rw [output_files_after_spill fs1 hc hf ht hcge hbne, hfl, ← hn]
      exact (claim_C6_div2 fs1.buf.length b chunks.length hm1 (by omega)).symm

/-- C6 witness: bufSize 2, three single-column rows — exactly one spill
after input, two run files once output begins. -/
theorem claim_C6_witness :
    ∃ fs1, inputAll (newFileSorter 1 1 2 [false])
        [⟨[5], [0], 5⟩, ⟨[3], [0], 3⟩, ⟨[1], [0], 1⟩] = (none, fs1) ∧
      ([⟨[5], [0], 5⟩, ⟨[3], [0], 3⟩, (⟨[1], [0], 1⟩ : ComparableRow)].length = 2 + 1 →
        fs1.files.length = 1) ∧
      ([⟨[5], [0], 5⟩, ⟨[3], [0], 3⟩, (⟨[1], [0], 1⟩ : ComparableRow)].length ≤ 2 →
        fs1.files.length = 0) ∧
      (1 ≤ [⟨[5], [0], 5⟩, ⟨[3], [0], 3⟩, (⟨[1], [0], 1⟩ : ComparableRow)].length →
        fs1.files.length =
          ([⟨[5], [0], 5⟩, ⟨[3], [0], 3⟩, (⟨[1], [0], 1⟩ : ComparableRow)].length - 1) / 2) ∧
      ((output fs1).2.2.files.length =
        if [⟨[5], [0], 5⟩, ⟨[3], [0], 3⟩, (⟨[1], [0], 1⟩ : ComparableRow)].length ≤ 2 then 0
        else ([⟨[5], [0], 5⟩, ⟨[3], [0], 3⟩,
          (⟨[1], [0], 1⟩ : ComparableRow)].length + 2 - 1) / 2) :=
  claim_C6 1 1 2 [false] [⟨[5], [0], 5⟩, ⟨[3], [0], 3⟩, ⟨[1], [0], 1⟩] (by decide)
    (by decide)

/-! ### The merge-phase invariant -/

/-- Placeholder row for `headD` on lists known to be nonempty. -/
def dfltRow : ComparableRow := ⟨[], [], 0⟩

/-- The rows currently held in the merge heap. -/
def heapRows (fs : FileSorter) : List ComparableRow :=
  fs.heap.map HeapItem.value

theorem getD_set_self : ∀ (l : List (List UInt8))
    (i : Nat), i < l.length → ∀ (x : List UInt8), (l.set i x).getD i [] = x := by
  intro l
  induction l with
  | nil => intro i h; simp at h
  | cons a as ih =>
    intro i h x
    cases i with
    | zero => rfl
    | succ i =>
      simp only [List.set_cons_succ, List.getD_cons_succ]
      exact ih i (by simpa using h) x

theorem getD_set_ne : ∀ (l : List (List UInt8)) (i j : Nat), j ≠ i →
    ∀ (x : List UInt8), (l.set i x).getD j [] = l.getD j [] := by
  intro l
  induction l with
  | nil => intro i j _ x; simp [List.set]
  | cons a as ih =>
    intro i j hne x
    cases i with
    | zero =>
      cases j with
      | zero => exact absurd rfl hne
      | succ j => rfl
    | succ i =>
      cases j with
      | zero => rfl
      | succ j =>
        simp only [List.set_cons_succ, List.getD_cons_succ]
        exact ih i j (fun hc => hne (by rw [hc])) x

theorem get_set_self (l : List (List ComparableRow)) (i : Nat) (h : i < l.length)
    (x : List ComparableRow) :
    (l.set i x).get ⟨i, by simpa using h⟩ = x := by
  simp [List.get_eq_getElem, List.getElem_set]

theorem get_set_ne (l : List (List ComparableRow)) (i j : Nat) (hne : j ≠ i)
    (h : j < l.length) (x : List ComparableRow) :
    (l.set i x).get ⟨j, by simpa using h⟩ = l.get ⟨j, h⟩ := by
  simp only [List.get_eq_getElem, List.getElem_set]
  rw [if_neg (fun hc => hne hc.symm)]

/-- Removing the head of the `i`-th run moves it to the front of the
flattened remainder, up to permutation. -/
theorem flatten_set_cons :
    ∀ (l : List (List ComparableRow)) (i : Nat) (h : i < l.length)
    (a : ComparableRow) (tl : List ComparableRow),
    l.get ⟨i, h⟩ = a :: tl →
    List.Perm l.flatten (a :: (l.set i tl).flatten) := by
  intro l
  induction l with
  | nil => intro i h; simp at h
  | cons x ls ih =>
    intro i h a tl hget
    cases i with
    | zero =>
      simp only [List.get] at hget
      subst hget
      simp only [List.set_cons_zero, List.flatten_cons, List.cons_append]
      exact List.Perm.refl _
    | succ i =>
      simp only [List.get] at hget
      have hperm := ih i (by simpa using h) a tl hget
      simp only [List.set_cons_succ, List.flatten_cons]
      exact (List.Perm.append_left x hperm).trans List.perm_middle

/-- The invariant of the k-way merge phase, relative to the list `rem`
of per-run unread remainders: each open descriptor holds the encoded
remainder of its run, remainders are sorted and well formed, every
heap row is a lower bound of its run's remainder, heap indices are
distinct, and every non-exhausted run is represented in the heap. -/
def MergeInv (k v : Nat) (bd : List Bool) (fs : FileSorter)
    (rem : List (List ComparableRow)) : Prop :=
  fs.keySize = k ∧ fs.valSize = v ∧ fs.byDesc = bd ∧
  fs.closed = false ∧ fs.fetched = true ∧ fs.files.length ≠ 0 ∧
  fs.fds.length = rem.length ∧
  (∀ i (h : i < rem.length), fs.fds.getD i [] = bytesOfRows (rem.get ⟨i, h⟩)) ∧
  (∀ i (h : i < rem.length), ∀ r ∈ rem.get ⟨i, h⟩, RowWF k v r) ∧
  (∀ i (h : i < rem.length), List.Pairwise (rowLE bd) (rem.get ⟨i, h⟩)) ∧
  (∀ it ∈ fs.heap, it.index < rem.length ∧ RowWF k v it.value) ∧
  (∀ it ∈ fs.heap, ∀ (h : it.index < rem.length),
    ∀ r ∈ rem.get ⟨it.index, h⟩, rowLE bd it.value r) ∧
  (fs.heap.map HeapItem.index).Nodup ∧
  (∀ i (h : i < rem.length), rem.get ⟨i, h⟩ ≠ [] → ∃ it ∈ fs.heap, it.index = i)

theorem fetchNextRow_eq (fs : FileSorter) (i : Nat) :
    fetchNextRow fs i =
      ((fetchCore fs.keySize fs.valSize (fs.fds.getD i [])).1,
       (fetchCore fs.keySize fs.valSize (fs.fds.getD i [])).2.1,
       { fs with fds := fs.fds.set i (fetchCore fs.keySize fs.valSize (fs.fds.getD i [])).2.2 }) := by
  unfold fetchNextRow
  rcases h : fetchCore fs.keySize fs.valSize (fs.fds.getD i []) with ⟨e, r, rest⟩
  rfl

/-- One merge step: with a non-empty heap, `Output` pops the heap
minimum `r`, refills from that run, and the invariant carries to the
new state with `r` a lower bound of everything still unread. -/
theorem mergeStep (k v : Nat) (bd : List Bool) (hkbd : k = bd.length)
    (fs : FileSorter) (rem : List (List ComparableRow))
    (hinv : MergeInv k v bd fs rem) (hne : fs.heap ≠ []) :
    ∃ r fs2 rem2,
      output fs = (none, some r, fs2) ∧
      MergeInv k v bd fs2 rem2 ∧
      (∀ x ∈ heapRows fs2 ++ rem2.flatten, rowLE bd r x) ∧
      List.Perm (r :: (heapRows fs2 ++ rem2.flatten)) (heapRows fs ++ rem.flatten) := by
  obtain ⟨hk, hv, hbd, hc, hf, hfl, hfdlen, hfds, hremWF, hremSorted, hheapWF, hheapLB,
    hnodup, hcover⟩ := hinv
  have houtput : output fs = externalSortStep fs := by
    unfold output
    rw [if_neg (by rw [hc]; simp), if_neg hfl]
    unfold externalSort
    rw [if_pos hf]
  rcases hq : fs.heap with _ | ⟨h0, hs⟩
  · exact absurd hq hne
  rcases hp1 : popMin1 bd h0 hs with ⟨im, rest⟩
  have hpop : popMin fs.byDesc fs.heap = some (im, rest) := by
    rw [hbd, hq]
    show some (popMin1 bd h0 hs) = some (im, rest)
    rw [hp1]
  have hpm_perm : List.Perm (im :: rest) fs.heap := by
    rw [hq]
    have := popMin1_perm bd h0 hs
    rw [hp1] at this
    exact this
  have him_mem : im ∈ fs.heap := (hpm_perm.mem_iff).mp (by simp)
  have hheaplen : ∀ x ∈ fs.heap, x.value.key.length = bd.length := by
    intro x hx
    rw [← hkbd]
    exact ((hheapWF x hx).2).1
  have hmin : ∀ x ∈ fs.heap, rowLE bd im.value x.value := by
    intro x hx
    rw [hq] at hx
    have := popMin1_min bd h0 hs (by
      intro y hy
      exact hheaplen y (by rw [hq]; exact hy)) x hx
    rw [hp1] at this
    exact this
  have hrest_sub : ∀ x ∈ rest, x ∈ fs.heap := by
    intro x hx
    exact (hpm_perm.mem_iff).mp (by simp [hx])
  have hnodup2 : ((im :: rest).map HeapItem.index).Nodup :=
    ((hpm_perm.map HeapItem.index).nodup_iff).mpr hnodup
  have him_notin : im.index ∉ rest.map HeapItem.index := by
    have := hnodup2
    simp only [List.map_cons, List.nodup_cons] at this
    exact this.1
  have hrest_nodup : (rest.map HeapItem.index).Nodup := by
    have := hnodup2
    simp only [List.map_cons, List.nodup_cons] at this
    exact this.2
  have him_lt : im.index < rem.length := (hheapWF im him_mem).1
  have hfds_im : fs.fds.getD im.index [] = bytesOfRows (rem.get ⟨im.index, him_lt⟩) :=
    hfds im.index him_lt
  -- the lower bound over runs represented in the heap, used in both cases
  have hLB_flatten : ∀ (rem2 : List (List ComparableRow)),
      (∀ j (hj : j < rem2.length), ∃ (hj2 : j < rem.length),
        ∀ x ∈ rem2.get ⟨j, hj⟩, x ∈ rem.get ⟨j, hj2⟩) →
      rem2.length = rem.length →
      ∀ x ∈ rem2.flatten, rowLE bd im.value x := by
    intro rem2 hsub hlen x hx
    rcases List.mem_flatten.mp hx with ⟨sub, hsubmem, hxsub⟩
    rcases List.mem_iff_get.mp hsubmem with ⟨⟨j, hj⟩, hget⟩
    rcases hsub j hj with ⟨hj2, hsub2⟩
    have hxrem : x ∈ rem.get ⟨j, hj2⟩ := hsub2 x (by rw [hget]; exact hxsub)
    have hjne : rem.get ⟨j, hj2⟩ ≠ [] := by
      intro habs
      rw [habs] at hxrem
      simp at hxrem
    rcases hcover j hj2 hjne with ⟨it, hitmem, hitidx⟩
    have h1 : rowLE bd im.value it.value := hmin it hitmem
    have h2 : rowLE bd it.value x := by
      subst hitidx
      exact hheapLB it hitmem hj2 x hxrem
    exact rowLE_trans (by rw [← hkbd]; exact ((hheapWF im him_mem).2).1)
      (by rw [← hkbd]; exact ((hheapWF it hitmem).2).1)
      (by rw [← hkbd]; exact ((hremWF j hj2 x hxrem).1))
      h1 h2
  have hidx_fds : im.index < fs.fds.length := by
    rw [hfdlen]
    exact him_lt
  rcases hrim : rem.get ⟨im.index, him_lt⟩ with _ | ⟨r1, tl1⟩
  · -- the popped run is already exhausted: no refill, `rem` unchanged
    have hcore : fetchCore fs.keySize fs.valSize (fs.fds.getD im.index []) =
        (none, none, []) := by
      rw [hfds_im, hrim]
      rfl
    have hstep : externalSortStep fs = (none, some im.value,
        { fs with heap := rest, fds := fs.fds.set im.index [] }) := by
      unfold externalSortStep
      rw [hpop]
      dsimp only
      rw [fetchNextRow_eq]
      dsimp only
      rw [hcore]
    refine ⟨im.value, { fs with heap := rest, fds := fs.fds.set im.index [] }, rem,
      houtput.trans hstep, ?_, ?_, ?_⟩
    · refine ⟨hk, hv, hbd, hc, hf, hfl, by simpa using hfdlen, ?_, hremWF, hremSorted,
        ?_, ?_, hrest_nodup, ?_⟩
      · intro i h
        by_cases hii : i = im.index
        · subst hii
          rw [getD_set_self fs.fds im.index hidx_fds, hrim]
          rfl
        · rw [getD_set_ne fs.fds im.index i hii]
          exact hfds i h
      · intro it hit
        exact hheapWF it (hrest_sub it hit)
      · intro it hit
        exact hheapLB it (hrest_sub it hit)
      · intro i h hne2
        rcases hcover i h hne2 with ⟨it, hitmem, hitidx⟩
        have : it ∈ im :: rest := (hpm_perm.mem_iff).mpr hitmem
        rcases List.mem_cons.mp this with hit | hit
        · exfalso
          rw [hit] at hitidx
          subst hitidx
          exact hne2 hrim
        · exact ⟨it, hit, hitidx⟩
    · intro x hx
      rcases List.mem_append.mp hx with hx | hx
      · rcases List.mem_map.mp hx with ⟨y, hy, hxy⟩
        rw [← hxy]
        exact hmin y (hrest_sub y hy)
      · exact hLB_flatten rem (fun j hj => ⟨hj, fun x hx => hx⟩) rfl x hx
    · show List.Perm (im.value :: (rest.map HeapItem.value ++ rem.flatten))
        (fs.heap.map HeapItem.value ++ rem.flatten)
      have h1 : List.Perm ((im :: rest).map HeapItem.value) (fs.heap.map HeapItem.value) :=
        hpm_perm.map HeapItem.value
      have h2 := h1.append_right rem.flatten
      simpa using h2
  · -- the popped run still has rows: refill the heap from it
    have hwr1 : RowWF k v r1 := hremWF im.index him_lt r1 (by rw [hrim]; simp)
    have hcore : fetchCore fs.keySize fs.valSize (fs.fds.getD im.index []) =
        (none, some r1, bytesOfRows tl1) := by
      rw [hfds_im, hrim, bytesOfRows_cons, hk, hv]
      exact fetchCore_record k v r1 (bytesOfRows tl1) hwr1
    have hstep : externalSortStep fs = (none, some im.value,
        { fs with heap := rest ++ [⟨im.index, r1⟩],
                  fds := fs.fds.set im.index (bytesOfRows tl1) }) := by
      unfold externalSortStep
      rw [hpop]
      dsimp only
      rw [fetchNextRow_eq]
      dsimp only
      rw [hcore]
    have hsorted_im := hremSorted im.index him_lt
    rw [hrim] at hsorted_im
    have hr1_lb : ∀ x ∈ tl1, rowLE bd r1 x := (List.pairwise_cons.mp hsorted_im).1
    have htl1_sorted : List.Pairwise (rowLE bd) tl1 := (List.pairwise_cons.mp hsorted_im).2
    have hlen_set : (rem.set im.index tl1).length = rem.length := by simp
    refine ⟨im.value,
      { fs with heap := rest ++ [⟨im.index, r1⟩],
                fds := fs.fds.set im.index (bytesOfRows tl1) },
      rem.set im.index tl1, houtput.trans hstep, ?_, ?_, ?_⟩
    · refine ⟨hk, hv, hbd, hc, hf, hfl, by simpa using hfdlen, ?_, ?_, ?_, ?_, ?_, ?_, ?_⟩
      · intro i h
        rw [hlen_set] at h
        by_cases hii : i = im.index
        · subst hii
          rw [getD_set_self fs.fds im.index hidx_fds,
            get_set_self rem im.index him_lt tl1]
        · rw [getD_set_ne fs.fds im.index i hii, get_set_ne rem im.index i hii h]
          exact hfds i h
      · intro i h x hx
        rw [hlen_set] at h
        by_cases hii : i = im.index
        · subst hii
          rw [get_set_self rem im.index him_lt tl1] at hx
          exact hremWF im.index him_lt x (by rw [hrim]; exact List.mem_cons_of_mem r1 hx)
        · rw [get_set_ne rem im.index i hii h] at hx
          exact hremWF i h x hx
      · intro i h
        rw [hlen_set] at h
        by_cases hii : i = im.index
        · subst hii
          rw [get_set_self rem im.index him_lt tl1]
          exact htl1_sorted
        · rw [get_set_ne rem im.index i hii h]
          exact hremSorted i h
      · intro it hit
        rcases List.mem_append.mp hit with hit | hit
        · have := hheapWF it (hrest_sub it hit)
          exact ⟨by rw [hlen_set]; exact this.1, this.2⟩
        · rw [List.mem_singleton.mp hit]
          exact ⟨by rw [hlen_set]; exact him_lt, hwr1⟩
      · intro it hit h x hx
        rcases List.mem_append.mp hit with hit | hit
        · have hitne : it.index ≠ im.index := by
            intro habs
            exact him_notin (habs ▸ List.mem_map.mpr ⟨it, hit, rfl⟩)
          have h2 : it.index < rem.length := (hheapWF it (hrest_sub it hit)).1
          rw [get_set_ne rem im.index it.index hitne h2] at hx
          exact hheapLB it (hrest_sub it hit) h2 x hx
        · have hit2 := List.mem_singleton.mp hit
          subst hit2
          dsimp only at hx ⊢
          rw [get_set_self rem im.index him_lt tl1] at hx
          exact hr1_lb x hx
      · rw [List.map_append]
        rw [List.nodup_append]
        refine ⟨hrest_nodup, by simp, ?_⟩
        intro a ha hb
        simp only [List.map_cons, List.map_nil, List.mem_singleton] at hb
        rw [hb] at ha
        exact him_notin ha
      · intro i h hne2
        rw [hlen_set] at h
        by_cases hii : i = im.index
        · subst hii
          refine ⟨⟨im.index, r1⟩, ?_, rfl⟩
          simp
        · rw [get_set_ne rem im.index i hii h] at hne2
          rcases hcover i h hne2 with ⟨it, hitmem, hitidx⟩
          have : it ∈ im :: rest := (hpm_perm.mem_iff).mpr hitmem
          rcases List.mem_cons.mp this with hit | hit
          · exfalso
            rw [hit] at hitidx
            exact hii hitidx.symm
          · exact ⟨it, List.mem_append.mpr (Or.inl hit), hitidx⟩
    · intro x hx
      rcases List.mem_append.mp hx with hx | hx
      · show rowLE bd im.value x
        rcases List.mem_map.mp hx with ⟨y, hy, hxy⟩
        rcases List.mem_append.mp hy with hy | hy
        · rw [← hxy]
          exact hmin y (hrest_sub y hy)
        · rw [List.mem_singleton.mp hy] at hxy
          rw [← hxy]
          exact hheapLB im him_mem him_lt r1 (by rw [hrim]; simp)
      · refine hLB_flatten (rem.set im.index tl1) ?_ hlen_set x hx
        intro j hj
        rw [hlen_set] at hj
        refine ⟨hj, ?_⟩
        intro y hy
        by_cases hjj : j = im.index
        · subst hjj
          rw [get_set_self rem im.index him_lt tl1] at hy
          rw [hrim]
          exact List.mem_cons_of_mem r1 hy
        · rw [get_set_ne rem im.index j hjj hj] at hy
          exact hy
    · show List.Perm
        (im.value :: ((rest ++ [(⟨im.index, r1⟩ : HeapItem)]).map HeapItem.value ++
          (rem.set im.index tl1).flatten))
        (fs.heap.map HeapItem.value ++ rem.flatten)
      have hflat : List.Perm rem.flatten (r1 :: (rem.set im.index tl1).flatten) :=
        flatten_set_cons rem im.index him_lt r1 tl1 hrim
      have h1 : List.Perm ((im :: rest).map HeapItem.value) (fs.heap.map HeapItem.value) :=
        hpm_perm.map HeapItem.value
      have h2 : List.Perm
          (im.value :: (rest.map HeapItem.value ++ rem.flatten))
          (fs.heap.map HeapItem.value ++ rem.flatten) := by
        have := h1.append_right rem.flatten
        simpa using this
      refine List.Perm.trans ?_ h2
      apply List.Perm.cons im.value
      rw [List.map_append]
      simp only [List.map_cons, List.map_nil]
      have h3 : List.Perm (rest.map HeapItem.value ++ [r1] ++ (rem.set im.index tl1).flatten)
          (rest.map HeapItem.value ++ (r1 :: (rem.set im.index tl1).flatten)) := by
        rw [List.append_assoc]
        exact List.Perm.refl _
      refine h3.trans ?_
      exact List.Perm.append_left _ hflat.symm

/-- With an empty heap every run is exhausted: `Output` reports clean
end of data and nothing remains. -/
theorem mergeEnd (k v : Nat) (bd : List Bool) (fs : FileSorter)
    (rem : List (List ComparableRow)) (hinv : MergeInv k v bd fs rem)
    (hemp : fs.heap = []) :
    output fs = (none, none, fs) ∧ heapRows fs ++ rem.flatten = [] := by
  obtain ⟨hk, hv, hbd, hc, hf, hfl, hfdlen, hfds, hremWF, hremSorted, hheapWF, hheapLB,
    hnodup, hcover⟩ := hinv
  constructor
  · unfold output
    rw [if_neg (by rw [hc]; simp), if_neg hfl]
    unfold externalSort
    rw [if_pos hf]
    show externalSortStep fs = (none, none, fs)
    unfold externalSortStep
    rw [hemp]
    rfl
  · have hflt : rem.flatten = [] := by
      rw [List.flatten_eq_nil_iff]
      intro x hx
      rcases List.mem_iff_get.mp hx with ⟨⟨j, hj⟩, hget⟩
      by_contra hne
      rcases hcover j hj (by rw [hget]; exact hne) with ⟨it, hitmem, _⟩
      rw [hemp] at hitmem
      simp at hitmem
    rw [hflt]
    simp [heapRows, hemp]

/-- Draining a sorter in the merge phase: with enough fuel, `Output`
until end of data yields exactly the unread rows, in comparator
order. -/
theorem mergeDrain (k v : Nat) (bd : List Bool) (hkbd : k = bd.length) :
    ∀ (fuel : Nat) (fs : FileSorter) (rem : List (List ComparableRow)),
    MergeInv k v bd fs rem →
    (heapRows fs ++ rem.flatten).length < fuel →
    ∃ outs fs2, drain fuel fs = (none, outs, fs2) ∧
      List.Perm outs (heapRows fs ++ rem.flatten) ∧
      List.Chain' (rowLE bd) outs := by
  intro fuel
  induction fuel with
  | zero =>
    intro fs rem _ hlen
    omega
  | succ fuel ih =>
    intro fs rem hinv hlen
    rcases hq : fs.heap with _ | ⟨h0, hs⟩
    · have hend := mergeEnd k v bd fs rem hinv hq
      refine ⟨[], fs, ?_, ?_, by simp⟩
      · unfold drain
        rw [hend.1]
      · rw [hend.2]
    · have hstep := mergeStep k v bd hkbd fs rem hinv (by rw [hq]; simp)
      rcases hstep with ⟨r, fs2, rem2, hout, hinv2, hlb, hperm⟩
      have hlen2 : (heapRows fs2 ++ rem2.flatten).length < fuel := by
        have := hperm.length_eq
        simp only [List.length_cons] at this
        omega
      rcases ih fs2 rem2 hinv2 hlen2 with ⟨outs2, fs3, hdrain2, hperm2, hchain2⟩
      refine ⟨r :: outs2, fs3, ?_, ?_, ?_⟩
      · unfold drain
        rw [hout]
        dsimp only
        rw [hdrain2]
      · exact (hperm2.cons r).trans hperm
      · rw [List.chain'_cons']
        refine ⟨?_, hchain2⟩
        intro y hy
        have hymem : y ∈ outs2 := List.mem_of_mem_head? hy
        exact hlb y ((hperm2.mem_iff).mp hymem)

/-- The heap items created by the priming loop: one per run, carrying
the run's first row, indexed consecutively from `id`. -/
def headItems (id : Nat) : List (List ComparableRow) → List HeapItem
  | [] => []
  | run :: rest => ⟨id, run.headD dfltRow⟩ :: headItems (id + 1) rest

theorem headItems_map_index :
    ∀ (rs : List (List ComparableRow)) (id : Nat),
    (headItems id rs).map HeapItem.index = List.range' id rs.length := by
  intro rs
  induction rs with
  | nil => intro id; rfl
  | cons run rest ih =>
    intro id
    simp only [headItems, List.map_cons, List.length_cons, List.range'_succ]
    rw [ih (id + 1)]

theorem headItems_mem :
    ∀ (rs : List (List ComparableRow)) (id : Nat) (it : HeapItem),
    it ∈ headItems id rs →
    ∃ j, ∃ (hj : j < rs.length),
      it = ⟨id + j, (rs.get ⟨j, hj⟩).headD dfltRow⟩ := by
  intro rs
  induction rs with
  | nil => intro id it h; simp [headItems] at h
  | cons run rest ih =>
    intro id it h
    rcases List.mem_cons.mp h with h | h
    · exact ⟨0, by simp, by simpa using h⟩
    · rcases ih (id + 1) it h with ⟨j, hj, heq⟩
      refine ⟨j + 1, by simpa using hj, ?_⟩
      rw [heq]
      simp only [List.get]
      congr 1
      omega

theorem headItems_cover :
    ∀ (rs : List (List ComparableRow)) (id : Nat) (j : Nat) (hj : j < rs.length),
    (⟨id + j, (rs.get ⟨j, hj⟩).headD dfltRow⟩ : HeapItem) ∈ headItems id rs := by
  intro rs
  induction rs with
  | nil => intro id j hj; simp at hj
  | cons run rest ih =>
    intro id j hj
    cases j with
    | zero => simp [headItems, List.get]
    | succ j =>
      have := ih (id + 1) j (by simpa using hj)
      refine List.mem_cons_of_mem _ ?_
      simpa [Nat.add_assoc, Nat.add_comm 1 j, Nat.add_left_comm] using this

theorem headItems_values :
    ∀ (rs : List (List ComparableRow)) (id : Nat),
    (headItems id rs).map HeapItem.value = rs.map (fun run => run.headD dfltRow) := by
  intro rs
  induction rs with
  | nil => intro id; rfl
  | cons run rest ih =>
    intro id
    simp only [headItems, List.map_cons]
    rw [ih (id + 1)]

/-- Consuming the head of each nonempty run and keeping the tails
preserves the multiset of rows. -/
theorem heads_tails_perm :
    ∀ (runs : List (List ComparableRow)), (∀ run ∈ runs, run ≠ []) →
    List.Perm (runs.map (fun run => run.headD dfltRow) ++ (runs.map List.tail).flatten)
      runs.flatten := by
  intro runs
  induction runs with
  | nil => intro _; simp
  | cons run rest ih =>
    intro hne
    rcases hrq : run with _ | ⟨r0, rtl⟩
    · exact absurd hrq (hne run (by simp))
    simp only [List.map_cons, List.flatten_cons, List.headD_cons, List.tail_cons,
      List.cons_append]
    apply List.Perm.cons r0
    have hperm := ih (fun x hx => hne x (List.mem_cons_of_mem run hx))
    have hswap : List.Perm
        (rest.map (fun run => run.headD dfltRow) ++ (rtl ++ (rest.map List.tail).flatten))
        (rtl ++ (rest.map (fun run => run.headD dfltRow) ++ (rest.map List.tail).flatten)) := by
      rw [← List.append_assoc, ← List.append_assoc]
      exact List.Perm.append_right _ List.perm_append_comm
    exact hswap.trans (List.Perm.append_left rtl hperm)

theorem getD_map_bytes :
    ∀ (runs : List (List ComparableRow)) (j : Nat) (hj : j < runs.length),
    (runs.map bytesOfRows).getD j [] = bytesOfRows (runs.get ⟨j, hj⟩) := by
  intro runs
  induction runs with
  | nil => intro j hj; simp at hj
  | cons run rest ih =>
    intro j hj
    cases j with
    | zero => rfl
    | succ j =>
      simp only [List.map_cons, List.getD_cons_succ, List.get]
      exact ih j (by simpa using hj)

/-- What the priming loop does, processing run indices `id, id+1, ...`:
it reads the first record of each remaining run, pushes one heap item
per run, and leaves each descriptor at the encoded tail of its run. -/
theorem primeLoop_go (k v : Nat) :
    ∀ (n : Nat) (fs : FileSorter) (id : Nat) (runs : List (List ComparableRow)),
    fs.keySize = k → fs.valSize = v →
    runs.length = id + n → fs.fds.length = id + n →
    (∀ j (hj : j < runs.length), id ≤ j →
      fs.fds.getD j [] = bytesOfRows (runs.get ⟨j, hj⟩)) →
    (∀ j (hj : j < runs.length), id ≤ j → runs.get ⟨j, hj⟩ ≠ []) →
    (∀ run ∈ runs, ∀ r ∈ run, RowWF k v r) →
    ∃ fs2, primeLoop fs id n = (none, fs2) ∧
      fs2.keySize = fs.keySize ∧ fs2.valSize = fs.valSize ∧ fs2.byDesc = fs.byDesc ∧
      fs2.closed = fs.closed ∧ fs2.fetched = fs.fetched ∧ fs2.files = fs.files ∧
      fs2.buf = fs.buf ∧ fs2.tmpDirExists = fs.tmpDirExists ∧ fs2.cursor = fs.cursor ∧
      fs2.fds.length = fs.fds.length ∧
      (∀ j, j < id → fs2.fds.getD j [] = fs.fds.getD j []) ∧
      (∀ j (hj : j < runs.length), id ≤ j →
        fs2.fds.getD j [] = bytesOfRows ((runs.get ⟨j, hj⟩).tail)) ∧
      fs2.heap = fs.heap ++ headItems id (runs.drop id) := by
  intro n
  induction n with
  | zero =>
    intro fs id runs hk hv hrl hfl hfds hne hwf
    refine ⟨fs, rfl, rfl, rfl, rfl, rfl, rfl, rfl, rfl, rfl, rfl, rfl,
      fun j _ => rfl, ?_, ?_⟩
    · intro j hj hij
      exact absurd hj (by omega)
    · rw [List.drop_eq_nil_of_le (by omega)]
      simp [headItems]
  | succ n ih =>
    intro fs id runs hk hv hrl hfl hfds hne hwf
    have hidlt : id < runs.length := by omega
    have hidfd : id < fs.fds.length := by omega
    have hrun := hfds id hidlt (le_refl id)
    rcases hrq : runs.get ⟨id, hidlt⟩ with _ | ⟨r0, rtl⟩
    · exact absurd hrq (hne id hidlt (le_refl id))
    have hwfr0 : RowWF k v r0 :=
      hwf (runs.get ⟨id, hidlt⟩) (List.get_mem runs id hidlt) r0 (by rw [hrq]; simp)
    have hcore : fetchCore fs.keySize fs.valSize (fs.fds.getD id []) =
        (none, some r0, bytesOfRows rtl) := by
      rw [hrun, hrq, bytesOfRows_cons, hk, hv]
      exact fetchCore_record k v r0 (bytesOfRows rtl) hwfr0
    have hfetch := fetchNextRow_eq fs id
    rw [hcore] at hfetch
    have hrec := ih
      { fs with heap := fs.heap ++ [⟨id, r0⟩], fds := fs.fds.set id (bytesOfRows rtl) }
      (id + 1) runs hk hv (by omega) (by simp; omega)
      (by
        intro j hj hij
        show (fs.fds.set id (bytesOfRows rtl)).getD j [] = _
        rw [getD_set_ne fs.fds id j (by omega)]
        exact hfds j hj (by omega))
      (by
        intro j hj hij
        exact hne j hj (by omega))
      hwf
    rcases hrec with ⟨fs2, hl2, hfk, hfv, hfbd, hfc, hff, hffl, hfb, hft, hfcur,
      hflen, hpres, htails, hheap⟩
    have hprime : primeLoop fs id (n + 1) = (none, fs2) := by
      conv_lhs => unfold primeLoop
      rw [hfetch]
      dsimp only
      exact hl2
    refine ⟨fs2, hprime, hfk, hfv, hfbd, hfc, hff, hffl, hfb, hft, hfcur,
      by rw [hflen]; simp, ?_, ?_, ?_⟩
    · intro j hj
      rw [hpres j (by omega)]
      show (fs.fds.set id (bytesOfRows rtl)).getD j [] = _
      exact getD_set_ne fs.fds id j (by omega) _
    · intro j hj hij
      by_cases hji : j = id
      · subst hji
        rw [hpres j (by omega)]
        show (fs.fds.set j (bytesOfRows rtl)).getD j [] = _
        rw [getD_set_self fs.fds j hidfd, hrq]
        rfl
      · rw [htails j hj (by omega)]
    · rw [hheap]
      show _ = fs.heap ++ headItems id (runs.drop id)
      have hdrop : runs.drop id = (r0 :: rtl) :: runs.drop (id + 1) := by
        rw [← hrq, List.get_eq_getElem]
        exact List.drop_eq_getElem_cons hidlt
      rw [hdrop]
      simp only [headItems, List.headD_cons]
      rw [List.append_assoc]
      rfl

/-! ### From a fed sorter to the merge invariant -/

/-- Joining the sorted copies of the chunks permutes joining the
chunks themselves. -/
theorem flatten_map_sortRows_perm (bd : List Bool) :
    ∀ (cs : List (List ComparableRow)),
    List.Perm ((cs.map (sortRows bd)).flatten) cs.flatten := by
  intro cs
  induction cs with
  | nil => simp
  | cons c cs ih =>
    simp only [List.map_cons, List.flatten_cons]
    exact (sortRows_perm bd c).append ih

/-- Priming the heap from a state whose descriptors hold the encoded
sorted runs establishes the merge invariant: the heap receives each
run's first row, the descriptors keep the encoded tails, and heap plus
tails together still carry every run row. -/
theorem prime_establishes (k v : Nat) (bd : List Bool)
    (fs2 : FileSorter) (runs : List (List ComparableRow))
    (h2k : fs2.keySize = k) (h2v : fs2.valSize = v) (h2bd : fs2.byDesc = bd)
    (h2c : fs2.closed = false) (h2files : fs2.files.length ≠ 0)
    (h2heap : fs2.heap = [])
    (h2fds : fs2.fds = runs.map bytesOfRows)
    (hne : ∀ run ∈ runs, run ≠ [])
    (hwf : ∀ run ∈ runs, ∀ r ∈ run, RowWF k v r)
    (hsorted : ∀ run ∈ runs, List.Pairwise (rowLE bd) run) :
    ∃ fs3, primeLoop fs2 0 fs2.fds.length = (none, fs3) ∧
      MergeInv k v bd { fs3 with fetched := true } (runs.map List.tail) ∧
      List.Perm (heapRows { fs3 with fetched := true } ++ (runs.map List.tail).flatten)
        runs.flatten := by
  have h2len : fs2.fds.length = runs.length := by rw [h2fds]; simp
  obtain ⟨fs3, hloop, h3k, h3v, h3bd, h3c, h3f, h3files, h3buf, h3t, h3cur,
      h3len, h3pres, h3tails, h3heap⟩ :=
    primeLoop_go k v fs2.fds.length fs2 0 runs h2k h2v (by omega) (by omega)
      (fun j hj _ => by rw [h2fds]; exact getD_map_bytes runs j hj)
      (fun j hj _ => hne _ (List.get_mem runs j hj))
      hwf
  have hheap3 : fs3.heap = headItems 0 runs := by
    rw [h3heap, h2heap, List.nil_append, List.drop_zero]
  have hremlen : (runs.map List.tail).length = runs.length := by simp
  have hremget : ∀ i (h : i < (runs.map List.tail).length),
      (runs.map List.tail).get ⟨i, h⟩ = (runs.get ⟨i, by simpa using h⟩).tail := by
    intro i h
    simp [List.get_eq_getElem]
  refine ⟨fs3, hloop, ⟨?_, ?_, ?_, ?_, rfl, ?_, ?_, ?_, ?_, ?_, ?_, ?_, ?_, ?_⟩, ?_⟩
  · show fs3.keySize = k
    rw [h3k]
    exact h2k
  · show fs3.valSize = v
    rw [h3v]
    exact h2v
  · show fs3.byDesc = bd
    rw [h3bd]
    exact h2bd
  · show fs3.closed = false
    rw [h3c]
    exact h2c
  · show fs3.files.length ≠ 0
    rw [h3files]
    exact h2files
  · show fs3.fds.length = (runs.map List.tail).length
    rw [h3len, h2len, hremlen]
  · intro i h
    have h2 : i < runs.length := by simpa using h
    show fs3.fds.getD i [] = _
    rw [h3tails i h2 (by omega), hremget i h]
  · intro i h r hr
    rw [hremget i h] at hr
    exact hwf _ (List.get_mem runs i (by simpa using h)) r (List.mem_of_mem_tail hr)
  · intro i h
    rw [hremget i h]
    exact (hsorted _ (List.get_mem runs i (by simpa using h))).sublist
      (List.tail_sublist _)
  · intro it hit
    have hit3 : it ∈ headItems 0 runs := by rw [← hheap3]; exact hit
    rcases headItems_mem runs 0 it hit3 with ⟨j, hj, heq⟩
    have hidx : it.index = j := by rw [heq]; exact Nat.zero_add j
    have hval : it.value = (runs.get ⟨j, hj⟩).headD dfltRow := by rw [heq]
    constructor
    · rw [hidx, hremlen]
      exact hj
    · rw [hval]
      rcases hrq : runs.get ⟨j, hj⟩ with _ | ⟨r0, rtl⟩
      · exact absurd hrq (hne _ (List.get_mem runs j hj))
      · simp only [List.headD_cons]
        exact hwf _ (List.get_mem runs j hj) r0 (by rw [hrq]; simp)
  · intro it hit h r hr
    have hit3 : it ∈ headItems 0 runs := by rw [← hheap3]; exact hit
    rcases headItems_mem runs 0 it hit3 with ⟨j, hj, heq⟩
    have hidx : it.index = j := by rw [heq]; exact Nat.zero_add j
    have hval : it.value = (runs.get ⟨j, hj⟩).headD dfltRow := by rw [heq]
    have hjrem : j < (runs.map List.tail).length := by
      rw [hremlen]
      exact hj
    have hfin : (⟨it.index, h⟩ : Fin (runs.map List.tail).length) = ⟨j, hjrem⟩ :=
      Fin.ext hidx
    rw [hfin, hremget j hjrem] at hr
    rcases hrq : runs.get ⟨j, hj⟩ with _ | ⟨r0, rtl⟩
    · exact absurd hrq (hne _ (List.get_mem runs j hj))
    · rw [hrq] at hr
      simp only [List.tail_cons] at hr
      rw [hval, hrq]
      simp only [List.headD_cons]
      have hpw := hsorted _ (List.get_mem runs j hj)
      rw [hrq] at hpw
      exact (List.pairwise_cons.mp hpw).1 r hr
  · show (fs3.heap.map HeapItem.index).Nodup
    rw [hheap3, headItems_map_index]
    exact List.nodup_range' 0 runs.length 1 (by omega)
  · intro i h _
    have h2 : i < runs.length := by simpa using h
    refine ⟨⟨0 + i, (runs.get ⟨i, h2⟩).headD dfltRow⟩, ?_, Nat.zero_add i⟩
    show _ ∈ fs3.heap
    rw [hheap3]
    exact headItems_cover runs 0 i h2
  · show List.Perm (fs3.heap.map HeapItem.value ++ (runs.map List.tail).flatten)
      runs.flatten
    rw [hheap3, headItems_values]
    exact heads_tails_perm runs hne

/-- From a fed sorter that has spilled at least once, the external-sort
preparation (final flush, open, prime) succeeds and establishes the
merge invariant, conserving the inserted multiset. -/
theorem prep_establishes (k v b : Nat) (bd : List Bool) (hkbd : k = bd.length) (hb : 1 ≤ b)
    (inserted : List ComparableRow) (fs : FileSorter)
    (hinv : InputInv k v b bd inserted fs) (hspill : fs.files.length ≠ 0) :
    ∃ fsp rem, externalSortPrep fs = (none, fsp) ∧ MergeInv k v bd fsp rem ∧
      List.Perm (heapRows fsp ++ rem.flatten) inserted := by
  obtain ⟨hk, hv, hbs, hbd, hc, hf, ht, hcur, hheap0, hfds0, hfc, hblen, hbe, hwf,
    chunks, hfiles, hclen, hperm⟩ := hinv
  have hbufpos : fs.buf.length > 0 := by
    rcases Nat.eq_zero_or_pos fs.buf.length with h0 | h0
    · exfalso
      have hb0 : fs.buf = [] := List.length_eq_zero.mp h0
      have hins := hbe hb0
      rw [hins, hb0, List.append_nil] at hperm
      have hfl0 : chunks.flatten = [] := hperm.eq_nil
      rcases hcq : chunks with _ | ⟨c, cs⟩
      · exact hspill (by rw [hfiles, hcq]; rfl)
      · have hcnil : c = [] := List.flatten_eq_nil_iff.mp hfl0 c (by rw [hcq]; simp)
        have hlc := hclen c (by rw [hcq]; simp)
        rw [hcnil] at hlc
        simp at hlc
        omega
    · exact h0
  set runs : List (List ComparableRow) :=
    chunks.map (sortRows bd) ++ [sortRows bd fs.buf] with hruns
  have hrow_wf : ∀ run ∈ runs, ∀ r ∈ run, RowWF k v r := by
    intro run hrun r hr
    rw [hruns] at hrun
    rcases List.mem_append.mp hrun with hrun2 | hrun2
    · rcases List.mem_map.mp hrun2 with ⟨c, hcmem, hceq⟩
      have hrc : r ∈ c := by
        rw [← hceq] at hr
        exact (sortRows_perm bd c).mem_iff.mp hr
      exact hwf r (hperm.mem_iff.mp (List.mem_append.mpr
        (Or.inl (List.mem_flatten.mpr ⟨c, hcmem, hrc⟩))))
    · rw [List.mem_singleton.mp hrun2] at hr
      have hrb : r ∈ fs.buf := (sortRows_perm bd fs.buf).mem_iff.mp hr
      exact hwf r (hperm.mem_iff.mp (List.mem_append.mpr (Or.inr hrb)))
  have hrun_ne : ∀ run ∈ runs, run ≠ [] := by
    intro run hrun
    rw [hruns] at hrun
    rcases List.mem_append.mp hrun with hrun2 | hrun2
    · rcases List.mem_map.mp hrun2 with ⟨c, hcmem, hceq⟩
      intro hnil
      have hl0 : c.length = 0 := by
        rw [← (sortRows_perm bd c).length_eq, hceq, hnil]
        rfl
      have hlc := hclen c hcmem
      omega
    · rw [List.mem_singleton.mp hrun2]
      intro hnil
      have hl0 : fs.buf.length = 0 := by
        rw [← (sortRows_perm bd fs.buf).length_eq, hnil]
        rfl
      omega
  have hrun_sorted : ∀ run ∈ runs, List.Pairwise (rowLE bd) run := by
    intro run hrun
    have hwfr := hrow_wf run hrun
    rw [hruns] at hrun
    rcases List.mem_append.mp hrun with hrun2 | hrun2
    · rcases List.mem_map.mp hrun2 with ⟨c, hcmem, hceq⟩
      rw [← hceq]
      apply sortRows_pairwise
      intro r hr
      have hrr : r ∈ run := by
        rw [← hceq]
        exact (sortRows_mem_iff bd c r).mpr hr
      rw [(hwfr r hrr).1]
      exact hkbd
    · rw [List.mem_singleton.mp hrun2]
      apply sortRows_pairwise
      intro r hr
      have hrr : r ∈ run := by
        rw [List.mem_singleton.mp hrun2]
        exact (sortRows_mem_iff bd fs.buf r).mpr hr
      rw [(hwfr r hrr).1]
      exact hkbd
  set L1 : FileSorter := { fs with
    buf := []
    files := fs.files ++ [bytesOfRows (sortRows fs.byDesc fs.buf)]
    fileCount := fs.fileCount + 1 } with hL1
  have hflush : flushToFile fs = (none, L1) := by
    rw [hL1]
    exact flushToFile_ok fs ht
  set L2 : FileSorter := { L1 with fds := L1.fds ++ L1.files } with hL2
  have hopen : openAllFiles L1 = (none, L2) := by
    rw [hL2]
    unfold openAllFiles
    rw [if_pos (show L1.tmpDirExists = true from ht)]
  have hrunsfds : L2.fds = runs.map bytesOfRows := by
    rw [hL2, hL1]
    show fs.fds ++ (fs.files ++ [bytesOfRows (sortRows fs.byDesc fs.buf)]) = _
    rw [hfds0, List.nil_append, hfiles, hbd, hruns]
    simp [List.map_append, List.map_map, Function.comp]
  obtain ⟨fs3, hloop, hminv, hmperm⟩ :=
    prime_establishes k v bd L2 runs
      (show L2.keySize = k from hk) (show L2.valSize = v from hv)
      (show L2.byDesc = bd from hbd) (show L2.closed = false from hc)
      (by rw [hL2, hL1]; show (fs.files ++ _).length ≠ 0; simp)
      (show L2.heap = [] from hheap0)
      hrunsfds hrun_ne hrow_wf hrun_sorted
  have hprep : externalSortPrep fs = (none, { fs3 with fetched := true }) := by
    unfold externalSortPrep
    rw [if_pos hbufpos, hflush]
    dsimp only
    rw [hopen]
    dsimp only
    rw [hloop]
  refine ⟨{ fs3 with fetched := true }, runs.map List.tail, hprep, hminv, ?_⟩
  refine hmperm.trans ?_
  rw [hruns, List.flatten_append]
  simp only [List.flatten_cons, List.flatten_nil, List.append_nil]
  refine List.Perm.trans ?_ hperm
  exact (flatten_map_sortRows_perm bd chunks).append (sortRows_perm bd fs.buf)

/-! ### Draining a sorter end to end -/

/-- Two sorter states whose first `Output` call agrees (result and
successor state) drain identically. -/
theorem drain_congr_first (n : Nat) (fs fs2 : FileSorter) (h : output fs = output fs2) :
    drain (n + 1) fs = drain (n + 1) fs2 := by
  rcases ho : output fs with ⟨e, r, fs1⟩
  have ho2 : output fs2 = (e, r, fs1) := by rw [← h, ho]
  unfold drain
  rw [ho, ho2]

/-- Draining an already-fetched in-memory sorter walks the cursor to
the end of the buffer, returning exactly the unserved suffix. -/
theorem drainInternal_go :
    ∀ (fuel : Nat) (fs : FileSorter),
    fs.closed = false → fs.fetched = true → fs.files.length = 0 →
    fs.buf.length - fs.cursor < fuel →
    ∃ fs2, drain fuel fs = (none, fs.buf.drop fs.cursor, fs2) := by
  intro fuel
  induction fuel with
  | zero =>
    intro fs _ _ _ hlt
    omega
  | succ fuel ih =>
    intro fs hc hf hfl hlt
    have hout : output fs = internalSortServe fs := by
      unfold output
      rw [if_neg (by rw [hc]; simp), if_pos hfl]
      unfold internalSort
      rw [if_pos hf]
    by_cases hcurlt : fs.cursor < fs.buf.length
    · have hserve : internalSortServe fs =
          (none, some (fs.buf.get ⟨fs.cursor, hcurlt⟩), { fs with cursor := fs.cursor + 1 }) := by
        unfold internalSortServe
        rw [dif_pos hcurlt]
      obtain ⟨fs2, hrec⟩ := ih { fs with cursor := fs.cursor + 1 } hc hf hfl
        (by
          show fs.buf.length - (fs.cursor + 1) < fuel
          omega)
      refine ⟨fs2, ?_⟩
      unfold drain
      rw [hout, hserve]
      dsimp only
      rw [hrec]
      dsimp only
      have hdrop : fs.buf.drop fs.cursor =
          fs.buf.get ⟨fs.cursor, hcurlt⟩ :: fs.buf.drop (fs.cursor + 1) := by
        rw [List.get_eq_getElem]
        exact List.drop_eq_getElem_cons hcurlt
      rw [hdrop]
    · have hserve : internalSortServe fs = (none, none, fs) := by
        unfold internalSortServe
        rw [dif_neg hcurlt]
      refine ⟨fs, ?_⟩
      unfold drain
      rw [hout, hserve]
      dsimp only
      rw [List.drop_eq_nil_of_le (by omega)]

/-- Draining a fed sorter that never spilled: the first `Output` sorts
the buffer in memory, and the walk returns it whole, in comparator
order. -/
theorem drain_internal (k v b : Nat) (bd : List Bool) (hkbd : k = bd.length)
    (inserted : List ComparableRow) (fs : FileSorter)
    (hinv : InputInv k v b bd inserted fs) (hnof : fs.files.length = 0)
    (fuel : Nat) (hfuel : inserted.length < fuel) :
    ∃ outs fs2, drain fuel fs = (none, outs, fs2) ∧
      List.Perm outs inserted ∧ List.Chain' (rowLE bd) outs := by
  obtain ⟨hk, hv, hbs, hbd, hc, hf, ht, hcur, hheap0, hfds0, hfc, hblen, hbe, hwf,
    chunks, hfiles, hclen, hperm⟩ := hinv
  have hchunks : chunks = [] := by
    have h1 := congrArg List.length hfiles
    rw [hnof, List.length_map] at h1
    exact List.length_eq_zero.mp h1.symm
  rw [hchunks] at hperm
  simp only [List.flatten_nil, List.nil_append] at hperm
  set F : FileSorter := { fs with buf := sortRows fs.byDesc fs.buf, fetched := true }
    with hF
  have hFc : F.closed = false := by rw [hF]; exact hc
  have hFfl : F.files.length = 0 := by rw [hF]; exact hnof
  have hFf : F.fetched = true := by rw [hF]
  have hout_eq : output fs = output F := by
    unfold output
    rw [if_neg (by rw [hc]; simp), if_pos hnof, if_neg (by rw [hFc]; simp), if_pos hFfl]
    unfold internalSort
    rw [if_neg (by rw [hf]; simp), if_pos hFf, hF]
  rcases fuel with _ | n
  · omega
  obtain ⟨fs2, hdr⟩ := drainInternal_go (n + 1) F hFc hFf hFfl
    (by
      show F.buf.length - F.cursor < n + 1
      rw [hF]
      show (sortRows fs.byDesc fs.buf).length - fs.cursor < n + 1
      rw [hcur, (sortRows_perm fs.byDesc fs.buf).length_eq, Nat.sub_zero]
      have hle := hperm.length_eq
      omega)
  have hdropF : F.buf.drop F.cursor = sortRows bd fs.buf := by
    rw [hF]
    show (sortRows fs.byDesc fs.buf).drop fs.cursor = _
    rw [hcur, List.drop_zero, hbd]
  refine ⟨sortRows bd fs.buf, fs2, ?_, ?_, ?_⟩
  · rw [drain_congr_first n fs F hout_eq, hdr, hdropF]
  · exact (sortRows_perm bd fs.buf).trans hperm
  · apply (sortRows_pairwise bd fs.buf ?_).chain'
    intro r hr
    rw [(hwf r (hperm.mem_iff.mp hr)).1]
    exact hkbd

/-- Draining a fed sorter that spilled: the first `Output` flushes the
final run, opens and primes the runs, and the k-way merge returns the
whole inserted multiset in comparator order. -/
theorem drain_external (k v b : Nat) (bd : List Bool) (hkbd : k = bd.length) (hb : 1 ≤ b)
    (inserted : List ComparableRow) (fs : FileSorter)
    (hinv : InputInv k v b bd inserted fs) (hspill : fs.files.length ≠ 0)
    (fuel : Nat) (hfuel : inserted.length < fuel) :
    ∃ outs fs2, drain fuel fs = (none, outs, fs2) ∧
      List.Perm outs inserted ∧ List.Chain' (rowLE bd) outs := by
  obtain ⟨fsp, rem, hprep, hminv, hmperm⟩ :=
    prep_establishes k v b bd hkbd hb inserted fs hinv hspill
  obtain ⟨hk, hv, hbs, hbd, hc, hf, ht, hcur, hheap0, hfds0, hfc, hblen, hbe, hwf, _⟩ :=
    hinv
  have hpc : fsp.closed = false := hminv.2.2.2.1
  have hpf : fsp.fetched = true := hminv.2.2.2.2.1
  have hpfl : fsp.files.length ≠ 0 := hminv.2.2.2.2.2.1
  have hout_eq : output fs = output fsp := by
    unfold output
    rw [if_neg (by rw [hc]; simp), if_neg hspill, if_neg (by rw [hpc]; simp), if_neg hpfl]
    unfold externalSort
    rw [if_neg (by rw [hf]; simp), if_pos hpf, hprep]
  rcases fuel with _ | n
  · omega
  obtain ⟨outs, fs2, hdr, hperm2, hchain⟩ :=
    mergeDrain k v bd hkbd (n + 1) fsp rem hminv
      (by rw [hmperm.length_eq]; omega)
  refine ⟨outs, fs2, ?_, hperm2.trans hmperm, hchain⟩
  rw [drain_congr_first n fs fsp hout_eq, hdr]

/-- End to end: feed any well-formed rows into a freshly built sorter,
then drain.  Every `Input` succeeds and the drained sequence is
exactly the fed rows, in comparator order — on whichever path
(in-memory or spill) the buffer capacity forces. -/
theorem sortDrain (k v b : Nat) (bd : List Bool) (hkbd : k = bd.length) (hb : 1 ≤ b)
    (rows : List ComparableRow) (hwf : ∀ r ∈ rows, RowWF k v r)
    (fuel : Nat) (hfuel : rows.length < fuel) :
    (inputAll (newFileSorter k v b bd) rows).1 = none ∧
    ∃ outs fs2, drain fuel (inputAll (newFileSorter k v b bd) rows).2 = (none, outs, fs2) ∧
      List.Perm outs rows ∧ List.Chain' (rowLE bd) outs := by
  have hia := inputAll_inv k v b bd hb rows [] (newFileSorter k v b bd)
    (inputInv_init k v b bd) hwf
  have hinv : InputInv k v b bd rows (inputAll (newFileSorter k v b bd) rows).2 := by
    simpa using hia.2
  constructor
  · rw [hia.1]
  by_cases hfl : (inputAll (newFileSorter k v b bd) rows).2.files.length = 0
  · exact drain_internal k v b bd hkbd rows _ hinv hfl fuel hfuel
  · exact drain_external k v b bd hkbd hb rows _ hinv hfl fuel hfuel

/-! ### Claims C1 and C2 -/

/-- C1: for every multiset of well-formed rows fed through `Input`
into a freshly built sorter, the sequence returned by repeated
`Output` calls is monotonic under the configured comparator
(lexicographic over key columns with per-column descending flags,
first non-zero comparison deciding) — on both the in-memory path and
the spill path; and in the concrete scenario with `bufSize = 2` and
one ascending key column, feeding keys `[5, 3, 1, 4]` yields the
output key sequence `1, 3, 4, 5`. -/
theorem claim_C1 :
    (∀ (k v b : Nat) (bd : List Bool) (rows : List ComparableRow) (fuel : Nat),
      k = bd.length → 1 ≤ b → (∀ r ∈ rows, RowWF k v r) → rows.length < fuel →
      ∃ outs fs2, drain fuel (inputAll (newFileSorter k v b bd) rows).2 =
          (none, outs, fs2) ∧
        List.Perm outs rows ∧ List.Chain' (rowLE bd) outs) ∧
    ((drain 5 (inputAll (newFileSorter 1 1 2 [false])
        [⟨[5], [50], 5⟩, ⟨[3], [30], 3⟩, ⟨[1], [10], 1⟩, ⟨[4], [40], 4⟩]).2).2.1.map
          (fun r => r.key) = [[1], [3], [4], [5]] ∧
     (drain 5 (inputAll (newFileSorter 1 1 2 [false])
        [⟨[5], [50], 5⟩, ⟨[3], [30], 3⟩, ⟨[1], [10], 1⟩, ⟨[4], [40], 4⟩]).2).2.1.map
          (fun r => r.handle) = [1, 3, 4, 5] ∧
     (drain 5 (inputAll (newFileSorter 1 1 2 [false])
        [⟨[5], [50], 5⟩, ⟨[3], [30], 3⟩, ⟨[1], [10], 1⟩, ⟨[4], [40], 4⟩]).2).1 = none) := by
  refine ⟨?_, by rfl, by rfl, by rfl⟩
  intro k v b bd rows fuel hkbd hb hwf hfuel
  exact (sortDrain k v b bd hkbd hb rows hwf fuel hfuel).2

/-- The universal half of C1 applied at a concrete input: two rows fed
with one descending key column drain without error, as a permutation
of the input, in comparator order. -/
theorem claim_C1_witness :
    ∃ outs fs2, drain 3 (inputAll (newFileSorter 1 1 2 [false])
        [⟨[2], [20], 2⟩, ⟨[1], [10], 1⟩]).2 = (none, outs, fs2) ∧
      List.Perm outs [⟨[2], [20], 2⟩, ⟨[1], [10], 1⟩] ∧
      List.Chain' (rowLE [false]) outs :=
  claim_C1.1 1 1 2 [false] [⟨[2], [20], 2⟩, ⟨[1], [10], 1⟩] 3 rfl (by decide)
    (by decide) (by decide)

/-- C2: conservation — for every multiset of well-formed rows fed
through `Input`, exhaustively draining `Output` returns exactly that
multiset of `(key, value, handle)` tuples, no duplication and no loss,
for any buffer capacity and spill pattern; and each row round-trips
exactly through the on-disk record format (8-byte big-endian length,
then encoded key, value and handle) written by `flushToFile` and read
back by `fetchNextRow`. -/
theorem claim_C2 :
    (∀ (k v b : Nat) (bd : List Bool) (rows : List ComparableRow) (fuel : Nat),
      k = bd.length → 1 ≤ b → (∀ r ∈ rows, RowWF k v r) → rows.length < fuel →
      ∃ outs fs2, drain fuel (inputAll (newFileSorter k v b bd) rows).2 =
          (none, outs, fs2) ∧ List.Perm outs rows) ∧
    (∀ (k v : Nat) (r : ComparableRow) (rest : List UInt8), RowWF k v r →
      fetchCore k v (recordOf r ++ rest) = (none, some r, rest)) := by
  constructor
  · intro k v b bd rows fuel hkbd hb hwf hfuel
    obtain ⟨outs, fs2, hdr, hperm, _⟩ := (sortDrain k v b bd hkbd hb rows hwf fuel hfuel).2
    exact ⟨outs, fs2, hdr, hperm⟩
  · intro k v r rest hwfr
    exact fetchCore_record k v r rest hwfr

/-- C2 applied at a concrete input: two rows spill (bufSize 1), drain
back as a permutation of the input, and a concrete record decodes to
exactly the row that produced it. -/
theorem claim_C2_witness :
    (∃ outs fs2, drain 3 (inputAll (newFileSorter 1 1 1 [true])
        [⟨[1], [10], 1⟩, ⟨[2], [20], 2⟩]).2 = (none, outs, fs2) ∧
      List.Perm outs [⟨[1], [10], 1⟩, ⟨[2], [20], 2⟩]) ∧
    fetchCore 1 1 (recordOf ⟨[7], [8], 9⟩ ++ [0]) = (none, some ⟨[7], [8], 9⟩, [0]) :=
  ⟨claim_C2.1 1 1 1 [true] [⟨[1], [10], 1⟩, ⟨[2], [20], 2⟩] 3 rfl (by decide)
      (by decide) (by decide),
   claim_C2.2 1 1 ⟨[7], [8], 9⟩ [0] (by decide)⟩

end Gleam













